import Mathlib

/-
Verification of the Onion-Finder scanning engine.

Shallow embedding of src/internal/scanner/scan.go. Bytes are modelled as
Nat (values 0..255), Go strings and byte slices as List Nat. The Go regexp
`(?i)[a-z2-7]{56,}\.onion` is modelled byte-level with ASCII case folding:
leftmost match, greedy quantifier with backtracking, non-overlapping
continuation after each match (Go regexp FindAll semantics).
-/

namespace OnionFinder

/-! ### Byte-level helpers -/

/-- ASCII lower-casing of one byte (model of Go strings.ToLower / (?i)
folding restricted to ASCII). -/
def toLowerB (b : Nat) : Nat := if 65 ≤ b ∧ b ≤ 90 then b + 32 else b

/-- ASCII lower-casing of a byte string. -/
def toLowerBytes (s : List Nat) : List Nat := s.map toLowerB

/-- Does the byte match the character class `[a-z2-7]` case-insensitively? -/
def isBase32CI (b : Nat) : Bool :=
  decide ((97 ≤ b ∧ b ≤ 122) ∨ (65 ≤ b ∧ b ≤ 90) ∨ (50 ≤ b ∧ b ≤ 55))

/-- Is the byte a lowercase base32 character (`[a-z2-7]`)? -/
def isLowerBase32 (b : Nat) : Bool :=
  decide ((97 ≤ b ∧ b ≤ 122) ∨ (50 ≤ b ∧ b ≤ 55))

/-- The bytes of the literal suffix ".onion". -/
def dotOnion : List Nat := [46, 111, 110, 105, 111, 110]

/-- `startsWithCI pat s`: does `s` start with `pat` up to ASCII case folding?
(`pat` is given in lowercase.) -/
def startsWithCI : List Nat → List Nat → Bool
  | [], _ => true
  | _ :: _, [] => false
  | p :: ps, b :: bs => toLowerB b == p && startsWithCI ps bs

/-! ### The onion-address matcher

Model of `onionRegex = (?i)[a-z2-7]{56,}\.onion` together with
`FindAll`/`FindAllString`. At a given start position the greedy quantifier
first consumes the maximal run of class characters and then backtracks,
shortening the run one character at a time (never below 56), until the
literal `.onion` matches. `FindAll` tries each start position from the
left and resumes after the end of each reported match. -/

/-- Length of the maximal run of `[a-z2-7]` (case-insensitive) characters at
the head of the string. -/
def runLen : List Nat → Nat
  | [] => 0
  | b :: rest => if isBase32CI b then runLen rest + 1 else 0

/-- Backtracking step of the match attempt at the head of `s`: try run
lengths `k, k-1, ..., 56` until `.onion` follows; return the full match
length `k + 6` on success. -/
def matchAtAux (s : List Nat) : Nat → Option Nat
  | 0 => none
  | k + 1 =>
    if k + 1 < 56 then none
    else if startsWithCI dotOnion (s.drop (k + 1)) then some (k + 1 + 6)
    else matchAtAux s k

/-- Length of the leftmost-greedy match of the onion pattern at the head of
`s`, if any. -/
def findMatchLen (s : List Nat) : Option Nat := matchAtAux s (runLen s)

/-- Fuelled scan over all start positions (fuel bounds the number of
consumed bytes; `findAll` supplies `s.length`). -/
def findAllAux : Nat → List Nat → List (List Nat)
  | 0, _ => []
  | _ + 1, [] => []
  | fuel + 1, b :: rest =>
    match findMatchLen (b :: rest) with
    | some len => (b :: rest).take len :: findAllAux fuel ((b :: rest).drop len)
    | none => findAllAux fuel rest

/-- All non-overlapping leftmost matches of the onion pattern in `s`
(model of `onionRegex.FindAll(s, -1)`). -/
def findAll (s : List Nat) : List (List Nat) := findAllAux s.length s

/-- A byte string has the shape of a lowercase-normalized onion address:
at least 56 base32 characters immediately followed by ".onion". -/
def wellFormedValue (v : List Nat) : Bool :=
  decide (62 ≤ v.length) && (v.take (v.length - 6)).all isLowerBase32 &&
    v.drop (v.length - 6) == dotOnion

/-! ### EncodingClassifier: detectUTF16LE -/

/-- Number of zero bytes at odd indices of the list (indices 1, 3, 5, ...).
Translation of the loop `for i := 1; i < sampleSize; i += 2`. -/
def zeroOddCount : List Nat → Nat
  | _ :: b :: rest => (if b = 0 then 1 else 0) + zeroOddCount rest
  | _ => 0

/-- Model of `detectUTF16LE` (scan.go lines 277-298): BOM check, then the
null-in-odd-positions heuristic with threshold `sampleSize / 4` where
`sampleSize = min(len(data), 200)`. -/
def detectUTF16LE (data : List Nat) : Bool :=
  if data.length < 2 then false
  else if data.getD 0 0 = 255 ∧ data.getD 1 0 = 254 then true
  else decide (min data.length 200 / 4 < zeroOddCount (data.take 200))

/-! ### UTF-16LE decoding (decodeUTF16LE) -/

/-- Pair consecutive bytes into 16-bit little-endian code units
(model of the `u16[i] = uint16(data[...]) | uint16(data[...])<<8` loop;
a trailing odd byte cannot occur because the caller truncates to an even
count, and is ignored like Go's count-based loop would). -/
def toU16LE : List Nat → List Nat
  | b0 :: b1 :: rest => (b0 + 256 * b1) :: toU16LE rest
  | _ => []

/-- Model of Go `utf16.Decode`: surrogate pairs are combined, unpaired
surrogates become U+FFFD, everything else passes through. -/
def utf16DecodeAux : List Nat → List Nat
  | [] => []
  | [u] => if u < 55296 ∨ 57344 ≤ u then [u] else [65533]
  | u :: u2 :: rest =>
    if u < 55296 ∨ 57344 ≤ u then u :: utf16DecodeAux (u2 :: rest)
    else if 55296 ≤ u ∧ u < 56320 ∧ 56320 ≤ u2 ∧ u2 < 57344 then
      (65536 + (u - 55296) * 1024 + (u2 - 56320)) :: utf16DecodeAux rest
    else 65533 :: utf16DecodeAux (u2 :: rest)

/-- UTF-8 encoding of one rune (applied only to `utf16DecodeAux` outputs,
which are valid non-surrogate runes ≤ 0x10FFFF). -/
def utf8Encode (r : Nat) : List Nat :=
  if r < 128 then [r]
  else if r < 2048 then [192 + r / 64, 128 + r % 64]
  else if r < 65536 then [224 + r / 4096, 128 + r / 64 % 64, 128 + r % 64]
  else [240 + r / 262144, 128 + r / 4096 % 64, 128 + r / 64 % 64, 128 + r % 64]

/-- Model of `decodeUTF16LE` (scan.go lines 302-327): strip the BOM if
present, truncate to an even byte count, decode 16-bit LE code units, and
return the resulting text as UTF-8 bytes (a Go string). -/
def decodeUTF16LE (data : List Nat) : List Nat :=
  if data.length < 2 then []
  else
    let start := if data.getD 0 0 = 255 ∧ data.getD 1 0 = 254 then 2 else 0
    let data2 := if (data.length - start) % 2 ≠ 0 then data.take (data.length - 1) else data
    ((utf16DecodeAux (toU16LE (data2.drop start))).map utf8Encode).flatten

/-! ### Cleansed projection (extractOnionChars) -/

/-- Is the byte valid inside an onion address: `[a-zA-Z2-7.]`
(model of `isValidOnionChar`)? -/
def isValidOnionChar (b : Nat) : Bool :=
  decide ((97 ≤ b ∧ b ≤ 122) ∨ (65 ≤ b ∧ b ≤ 90) ∨ (50 ≤ b ∧ b ≤ 55) ∨ b = 46)

/-- The accumulator loop of `extractOnionChars` (scan.go lines 238-262):
`buf` is the output built so far; null bytes are skipped, valid characters
appended lowercase, any other byte appends one separator space unless the
buffer is empty or already ends in a space. -/
def extractGo : List Nat → List Nat → List Nat
  | buf, [] => buf
  | buf, b :: rest =>
    if b = 0 then extractGo buf rest
    else if isValidOnionChar b then extractGo (buf ++ [toLowerB b]) rest
    else if buf ≠ [] ∧ buf.getLast? ≠ some 32 then extractGo (buf ++ [32]) rest
    else extractGo buf rest

/-- Model of `extractOnionChars`. -/
def extractOnionChars (data : List Nat) : List Nat := extractGo [] data

/-- Model of `scanChunk` (scan.go lines 218-233): direct matching on the
raw bytes, then matching on the cleansed projection; the candidate lists
are concatenated. -/
def scanChunk (data : List Nat) : List (List Nat) :=
  findAll data ++ findAll (extractOnionChars data)

/-! ### PatternMatcher denylist -/

/-- Bytes of a string literal. -/
def strB (s : String) : List Nat := s.data.map Char.toNat

/-- The four denylisted generic onion addresses (`knownGenericOnions`). -/
def knownGenericOnions : List (List Nat) :=
  [strB "duckduckgogg42xjoc72x3sjasowoarfbgcmvfimaftt6twagswzczad.onion",
   strB "reddittorjg6rue252oqsxryoxengawnmo46qy4kyii5wtqnwfj4ooad.onion",
   strB "facebookwkhpilnemxj7asaniu7vnjjbiltxjqhye3mhbshg7kx5tfyd.onion",
   strB "archiveiya74codqgiixo33q62qlrqtkgmcitqx5u2oeqnmn5bpcbiyd.onion"]

/-- Model of `isGenericOnion`: case-normalized exact lookup in the
denylist. -/
def isGenericOnion (value : List Nat) : Bool :=
  knownGenericOnions.contains (toLowerBytes value)

/-! ### Records and per-file accumulation -/

/-- Modelled from the spec: AddressRecord `{value, path}` — the `Onion`
struct of the missing internal/model package; `value` is the
lowercase-normalized matched address, `path` the filesystem path. -/
structure Onion where
  value : List Nat
  path : List Nat
deriving DecidableEq, Repr

/-- Per-file accumulator: the `seen` value set and the results slice of
`scanFile` / `scanFileChunked` (the Go map is modelled as the list of keys
inserted so far, which the code keeps in lockstep with `results`). -/
structure FileAcc where
  seen : List (List Nat)
  results : List Onion
deriving DecidableEq, Repr

/-- One iteration of the shared match-merging loop of `scanFile` and
`scanFileChunked`: lowercase the match, drop denylisted values, then
dedup by value within the file. -/
def addMatch (path : List Nat) (acc : FileAcc) (m : List Nat) : FileAcc :=
  let value := toLowerBytes m
  if isGenericOnion value then acc
  else if value ∈ acc.seen then acc
  else ⟨acc.seen ++ [value], acc.results ++ [⟨value, path⟩]⟩

/-- Merge a list of raw matches into the per-file accumulator. -/
def addMatches (path : List Nat) (acc : FileAcc) (ms : List (List Nat)) : FileAcc :=
  ms.foldl (addMatch path) acc

/-! ### Chunked scanning -/

/-- `ChunkSize` (1 MiB per chunk). -/
def ChunkSize : Nat := 1024 * 1024

/-- `ChunkOverlap` (128 bytes of safety overlap between chunks). -/
def ChunkOverlap : Nat := 128

/-- One result of a `file.Read` call: the bytes delivered and whether a
non-nil error was returned alongside them. -/
structure ReadStep where
  bytes : List Nat
  isErr : Bool
deriving DecidableEq, Repr

/-- Model of the read loop of `scanFileChunked` (scan.go lines 171-209)
over an abstract stream of read results: stop on a zero-byte read, scan
the assembled block (overlap ++ new bytes), stop after a read that also
reported an error, otherwise update the trailing overlap (only when the
block is strictly longer than `ChunkOverlap`) and continue. An exhausted
stream stands for `Read` returning `(0, io.EOF)` from then on. -/
def runChunked (path : List Nat) : List ReadStep → List Nat → FileAcc → FileAcc
  | [], _, acc => acc
  | r :: rest, overlap, acc =>
    if r.bytes.length = 0 then acc
    else
      let block := overlap ++ r.bytes
      let acc' := addMatches path acc (scanChunk block)
      if r.isErr then acc'
      else
        let overlap' :=
          if ChunkOverlap < block.length then block.drop (block.length - ChunkOverlap)
          else overlap
        runChunked path rest overlap' acc'

/-- The same loop specialised to an error-free regular file that always
delivers `min(requested, remaining)` bytes: each `Read` asks for
`ChunkSize + ChunkOverlap - len(overlap)` bytes (the free space of the
reused buffer). Fuel bounds the iteration count; every iteration consumes
at least one byte, so `content.length + 1` suffices. -/
def goChunkLoop (path : List Nat) : Nat → List Nat → List Nat → FileAcc → FileAcc
  | 0, _, _, acc => acc
  | fuel + 1, remaining, overlap, acc =>
    let requested := ChunkSize + ChunkOverlap - overlap.length
    let bytes := remaining.take requested
    if bytes.length = 0 then acc
    else
      let block := overlap ++ bytes
      let acc' := addMatches path acc (scanChunk block)
      let overlap' :=
        if ChunkOverlap < block.length then block.drop (block.length - ChunkOverlap)
        else overlap
      goChunkLoop path fuel (remaining.drop requested) overlap' acc'

/-- Model of `scanFileChunked` reading an error-free regular file whose
full content is `content`. -/
def scanFileChunkedGo (path content : List Nat) : List Onion :=
  (goChunkLoop path (content.length + 1) content [] ⟨[], []⟩).results

/-- Model of `scanFile` (scan.go lines 108-159) for a readable file with
the given content: sample up to 4096 bytes, classify the encoding, then
either decode UTF-16LE and match once over the decoded text, or scan in
chunks. -/
def scanFile (content path : List Nat) : List Onion :=
  if content.length = 0 then []
  else if detectUTF16LE (content.take 4096) then
    (addMatches path ⟨[], []⟩ (findAll (decodeUTF16LE content))).results
  else scanFileChunkedGo path content

/-! ### Global merge (ScanForOnions, lines 433-442 and 469-491) -/

/-- The global dedup key `value + "|" + path` (byte 124 is `|`). -/
def keyOf (o : Onion) : List Nat := o.value ++ 124 :: o.path

/-- Merging candidate records into the shared result slice guarded by the
global `seen` map: a record is appended iff its key is new. The records
arrive in some scheduler-dependent order; the set of survivors is
order-independent (proved below). -/
def buildResults (records : List Onion) : List Onion :=
  records.foldl
    (fun acc o => if acc.any (fun r => keyOf r = keyOf o) then acc else acc ++ [o]) []

/-! ### Path normalization (Go path/filepath.Clean, Unix separators)

The scanner normalizes paths with `filepath.Clean` and `filepath.Join`
before the excluded-prefix comparison. We model the documented lexical
cleaning algorithm with `/` as the separator (`FromSlash` is then the
identity). -/

/-- Backtracking of the `..` case of Clean: starting from write position
`w`, walk back while `w > dotdot` and the byte at `w` is not a slash. -/
def shrinkTo (out : List Nat) (dd : Nat) : Nat → Nat
  | 0 => 0
  | w + 1 => if dd < w + 1 ∧ out.getD (w + 1) 0 ≠ 47 then shrinkTo out dd w else w + 1

/-- The `..` element handling of Clean: backtrack one element if possible,
else (when not rooted) append a literal `..` and move the dotdot marker. -/
def dotdotCase (rooted : Bool) (out : List Nat) (dd : Nat) : List Nat × Nat :=
  if dd < out.length then (out.take (shrinkTo out dd (out.length - 1)), dd)
  else if ¬rooted then
    let out' := (if out.length ≠ 0 then out ++ [47] else out) ++ [46, 46]
    (out', out'.length)
  else (out, dd)

/-- The element loop of Clean; fuel bounds the number of remaining input
bytes (every case consumes at least one). -/
def cleanLoop (rooted : Bool) : Nat → List Nat → List Nat → Nat → List Nat
  | 0, _, out, _ => out
  | _ + 1, [], out, _ => out
  | fuel + 1, 47 :: rest, out, dd => cleanLoop rooted fuel rest out dd
  | _ + 1, [46], out, _ => out
  | fuel + 1, 46 :: 47 :: rest, out, dd => cleanLoop rooted fuel rest out dd
  | _ + 1, [46, 46], out, dd => (dotdotCase rooted out dd).1
  | fuel + 1, 46 :: 46 :: 47 :: rest, out, dd =>
    cleanLoop rooted fuel rest (dotdotCase rooted out dd).1 (dotdotCase rooted out dd).2
  | fuel + 1, b :: rest, out, dd =>
    let elem := (b :: rest).takeWhile (fun c => c != 47)
    let rest' := (b :: rest).dropWhile (fun c => c != 47)
    let out' :=
      (if (rooted ∧ out.length ≠ 1) ∨ (¬rooted ∧ out.length ≠ 0) then out ++ [47] else out)
        ++ elem
    cleanLoop rooted fuel rest' out' dd

/-- Model of `filepath.Clean` (Unix rules). -/
def filepathClean (path : List Nat) : List Nat :=
  if path = [] then [46]
  else
    let rooted := path.headD 0 == 47
    let out :=
      if rooted then cleanLoop true (path.length - 1) (path.drop 1) [47] 1
      else cleanLoop false path.length path [] 0
    if out = [] then [46] else out

/-- Model of `filepath.Join` for two elements: join with a separator and
clean (empty first element degenerates to cleaning the second). -/
def filepathJoin (a b : List Nat) : List Nat :=
  if a = [] then filepathClean b else filepathClean (a ++ 47 :: b)

/-! ### ExclusionFilter -/

/-- Model of `buildExcludedPaths` (scan.go lines 75-84). -/
def buildExcludedPaths (mountRoot : List Nat) : List (List Nat) :=
  let r := filepathClean mountRoot
  [filepathJoin r (strB "Windows"),
   filepathJoin r (strB "Program Files"),
   filepathJoin r (strB "Program Files (x86)"),
   filepathJoin r (strB "PerfLogs")]

/-- Model of Go `strings.HasPrefix s pre`. -/
def hasPrefixB : List Nat → List Nat → Bool
  | _, [] => true
  | [], _ :: _ => false
  | a :: s, p :: ps => a == p && hasPrefixB s ps

/-- Model of `isExcludedPath` (scan.go lines 87-97): case-fold the cleaned
path and test it against each case-folded cleaned excluded prefix. -/
def isExcludedPath (path : List Nat) (excluded : List (List Nat)) : Bool :=
  let p := toLowerBytes (filepathClean path)
  excluded.any (fun e => hasPrefixB p (toLowerBytes (filepathClean e)))

/-- Model of `filepath.Base` (Unix rules): strip trailing separators, then
keep everything after the last separator. -/
def baseName (p : List Nat) : List Nat :=
  if p = [] then [46]
  else
    let q := (p.reverse.dropWhile (fun b => b == 47)).reverse
    if q = [] then [47]
    else (q.reverse.takeWhile (fun b => b != 47)).reverse

/-! ### Walker (filepath.WalkDir with the ScanForOnions callback)

Directory trees are a mutual inductive so that all walk functions are
structurally recursive (and hence evaluate inside the kernel). -/

mutual
inductive FSTree where
  | file (name : List Nat) (content : List Nat)
  | dir (name : List Nat) (entries : FSList)
inductive FSList where
  | nil
  | cons (t : FSTree) (ts : FSList)
end

/-- The entry name of a tree node. -/
def FSTree.name : FSTree → List Nat
  | .file n _ => n
  | .dir n _ => n

/-- What the walk produces: the visited paths, the filename-match
candidate records, and the queued `(path, content)` jobs. -/
structure WalkOut where
  visited : List (List Nat)
  records : List Onion
  jobs : List (List Nat × List Nat)
deriving DecidableEq, Repr

/-- Candidate records from matching the pattern against a visited entry's
base name (scan.go lines 469-491, before the global seen-check, which the
model applies in `buildResults`). -/
def fnameRecords (p : List Nat) : List Onion :=
  (findAll (baseName p)).foldl
    (fun acc m =>
      let value := toLowerBytes m
      if isGenericOnion value then acc else acc ++ [⟨value, p⟩]) []

mutual
/-- The WalkDir callback on one entry (scan.go lines 456-507): excluded
entries are skipped (directories without recursing); otherwise the base
name is matched, and plain files of at most 500 MiB are queued as jobs. -/
def walkT (excl : List (List Nat)) (p : List Nat) : FSTree → WalkOut
  | .file _ content =>
    if isExcludedPath p excl then ⟨[p], [], []⟩
    else
      ⟨[p], fnameRecords p,
        if content.length ≤ 500 * 1024 * 1024 then [(p, content)] else []⟩
  | .dir _ entries =>
    if isExcludedPath p excl then ⟨[p], [], []⟩
    else
      let rest := walkL excl p entries
      ⟨p :: rest.visited, fnameRecords p ++ rest.records, rest.jobs⟩
/-- Walk a list of directory entries, joining each name onto the parent
path. -/
def walkL (excl : List (List Nat)) (p : List Nat) : FSList → WalkOut
  | .nil => ⟨[], [], []⟩
  | .cons t ts =>
    let a := walkT excl (filepathJoin p t.name) t
    let b := walkL excl p ts
    ⟨a.visited ++ b.visited, a.records ++ b.records, a.jobs ++ b.jobs⟩
end

/-- Model of `ScanForOnions` over a directory tree: walk, scan every
queued file, and merge everything through the globally deduplicating
result collection. Workers may interleave merges in any order; this model
fixes one order, which is harmless for the result set (see the
permutation-invariance theorem below). -/
def ScanForOnionsModel (root : List Nat) (t : FSTree) : List Onion :=
  let w := walkT (buildExcludedPaths root) root t
  buildResults (w.records ++ (w.jobs.map (fun j => scanFile j.2 j.1)).flatten)

/-! ### Matcher lemmas -/

theorem matchAtAux_some {s : List Nat} {j len : Nat} (h : matchAtAux s j = some len) :
    ∃ k, len = k + 6 ∧ 56 ≤ k ∧ k ≤ j ∧ startsWithCI dotOnion (s.drop k) = true := by
  induction j with
  | zero => simp [matchAtAux] at h
  | succ k ih =>
    rw [matchAtAux] at h
    split_ifs at h with h1 h2
    · have hlen : k + 1 + 6 = len := by injection h
      exact ⟨k + 1, by omega, by omega, le_rfl, h2⟩
    · obtain ⟨k', hk'⟩ := ih h
      exact ⟨k', hk'.1, hk'.2.1, by omega, hk'.2.2.2⟩

theorem findMatchLen_some {s : List Nat} {len : Nat} (h : findMatchLen s = some len) :
    ∃ k, len = k + 6 ∧ 56 ≤ k ∧ k ≤ runLen s ∧ startsWithCI dotOnion (s.drop k) = true :=
  matchAtAux_some h

theorem findMatchLen_pos {s : List Nat} {len : Nat} (h : findMatchLen s = some len) :
    1 ≤ len := by
  obtain ⟨k, hk, -, -, -⟩ := findMatchLen_some h
  omega

theorem runLen_take_all : ∀ (s : List Nat) (k : Nat), k ≤ runLen s →
    (s.take k).all isBase32CI = true := by
  intro s
  induction s with
  | nil =>
    intro k hk
    simp [runLen] at hk
    simp [hk]
  | cons b rest ih =>
    intro k hk
    cases k with
    | zero => simp
    | succ k' =>
      rw [runLen] at hk
      by_cases hb : isBase32CI b
      · rw [if_pos hb] at hk
        simp only [List.take_succ_cons, List.all_cons, hb, Bool.true_and]
        exact ih k' (by omega)
      · rw [if_neg hb] at hk
        omega

theorem startsWithCI_spec : ∀ (p s : List Nat), startsWithCI p s = true →
    p.length ≤ s.length ∧ toLowerBytes (s.take p.length) = p := by
  intro p
  induction p with
  | nil =>
    intro s _
    simp [toLowerBytes]
  | cons c cs ih =>
    intro s h
    cases s with
    | nil => simp [startsWithCI] at h
    | cons b bs =>
      rw [startsWithCI, Bool.and_eq_true, beq_iff_eq] at h
      obtain ⟨h1, h2⟩ := h
      obtain ⟨hl, ht⟩ := ih bs h2
      constructor
      · simpa using Nat.succ_le_succ hl
      · simpa [toLowerBytes, h1] using ht

theorem isLowerBase32_toLowerB {b : Nat} (h : isBase32CI b = true) :
    isLowerBase32 (toLowerB b) = true := by
  simp only [isBase32CI, decide_eq_true_eq] at h
  simp only [isLowerBase32, toLowerB, decide_eq_true_eq]
  split <;> omega

theorem wellFormed_of_match {s m : List Nat} {len : Nat}
    (hf : findMatchLen s = some len) (hm : m = s.take len) :
    wellFormedValue (toLowerBytes m) = true := by
  obtain ⟨k, hlen, h56, hkr, hsw⟩ := findMatchLen_some hf
  obtain ⟨hswl, hswt⟩ := startsWithCI_spec _ _ hsw
  have hd6 : (6 : Nat) ≤ s.length - k := by simpa [dotOnion] using hswl
  have hks : k + 6 ≤ s.length := by
    rcases Nat.le_total k s.length with h | h
    · omega
    · rw [List.drop_eq_nil_of_le h] at hswl
      simp [dotOnion] at hswl
  have hmlen : m.length = k + 6 := by
    rw [hm, List.length_take]
    omega
  have hvlen : (toLowerBytes m).length = k + 6 := by
    simpa [toLowerBytes] using hmlen
  have htk : (toLowerBytes m).take k = toLowerBytes (s.take k) := by
    rw [hm, toLowerBytes, toLowerBytes, ← List.map_take, List.take_take]
    congr 2
    omega
  have hdk : (toLowerBytes m).drop k = dotOnion := by
    rw [hm, toLowerBytes, ← List.map_drop]
    have : (s.take len).drop k = (s.drop k).take 6 := by
      rw [hlen, ← List.take_drop]
    rw [this]
    have h6 : dotOnion.length = 6 := by simp [dotOnion]
    simpa [toLowerBytes, h6] using hswt
  rw [wellFormedValue]
  have hsub : (toLowerBytes m).length - 6 = k := by omega
  rw [hsub]
  simp only [Bool.and_eq_true, decide_eq_true_eq, beq_iff_eq]
  refine ⟨⟨by omega, ?_⟩, hdk⟩
  rw [htk, toLowerBytes, List.all_map, List.all_eq_true]
  intro b hb
  have hall := runLen_take_all s k hkr
  rw [List.all_eq_true] at hall
  exact isLowerBase32_toLowerB (hall b hb)

theorem findAllAux_mem : ∀ (f : Nat) (s m : List Nat), m ∈ findAllAux f s →
    ∃ t len, findMatchLen t = some len ∧ m = t.take len := by
  intro f
  induction f with
  | zero =>
    intro s m hm
    simp [findAllAux] at hm
  | succ f ih =>
    intro s m hm
    cases s with
    | nil => simp [findAllAux] at hm
    | cons b rest =>
      rw [findAllAux] at hm
      cases hfm : findMatchLen (b :: rest) with
      | some len =>
        rw [hfm] at hm
        rcases List.mem_cons.mp hm with h | h
        · exact ⟨b :: rest, len, hfm, h⟩
        · exact ih _ _ h
      | none =>
        rw [hfm] at hm
        exact ih _ _ hm

theorem findAll_value_wellFormed {s m : List Nat} (h : m ∈ findAll s) :
    wellFormedValue (toLowerBytes m) = true := by
  obtain ⟨t, len, hf, hm⟩ := findAllAux_mem _ _ _ h
  exact wellFormed_of_match hf hm

theorem findAllAux_nil : ∀ (f : Nat), findAllAux f [] = [] := by
  intro f
  cases f <;> rfl

theorem findAllAux_congr : ∀ (f : Nat) (s : List Nat) (g : Nat),
    s.length ≤ f → s.length ≤ g → findAllAux f s = findAllAux g s := by
  intro f
  induction f with
  | zero =>
    intro s g hf _
    have : s = [] := by
      cases s
      · rfl
      · simp at hf
    rw [this, findAllAux_nil, findAllAux_nil]
  | succ f ih =>
    intro s g hf hg
    cases s with
    | nil => rw [findAllAux_nil, findAllAux_nil]
    | cons b rest =>
      cases g with
      | zero => simp at hg
      | succ g =>
        rw [findAllAux, findAllAux]
        cases hfm : findMatchLen (b :: rest) with
        | some len =>
          have hpos := findMatchLen_pos hfm
          have hdl : ((b :: rest).drop len).length ≤ f := by
            simp only [List.length_drop, List.length_cons] at *
            omega
          have hdg : ((b :: rest).drop len).length ≤ g := by
            simp only [List.length_drop, List.length_cons] at *
            omega
          dsimp only
          rw [ih _ _ hdl hdg]
        | none =>
          have h1 : rest.length ≤ f := by simp at hf; omega
          have h2 : rest.length ≤ g := by simp at hg; omega
          dsimp only
          exact ih _ _ h1 h2

theorem findAllAux_eq_findAll {f : Nat} {s : List Nat} (h : s.length ≤ f) :
    findAllAux f s = findAll s :=
  findAllAux_congr f s s.length h le_rfl

theorem findAll_cons_none {b : Nat} {rest : List Nat}
    (h : findMatchLen (b :: rest) = none) : findAll (b :: rest) = findAll rest := by
  show findAllAux (rest.length + 1) (b :: rest) = _
  rw [findAllAux, h]
  rfl

theorem findAll_cons_some {b : Nat} {rest : List Nat} {len : Nat}
    (h : findMatchLen (b :: rest) = some len) :
    findAll (b :: rest) = (b :: rest).take len :: findAll ((b :: rest).drop len) := by
  show findAllAux (rest.length + 1) (b :: rest) = _
  rw [findAllAux, h]
  have hpos := findMatchLen_pos h
  dsimp only
  congr 1
  apply findAllAux_eq_findAll
  simp only [List.length_drop, List.length_cons]
  omega

theorem findAll_eq_of_some {s : List Nat} {len : Nat}
    (hne : s ≠ []) (h : findMatchLen s = some len) :
    findAll s = s.take len :: findAll (s.drop len) := by
  cases s with
  | nil => exact absurd rfl hne
  | cons b rest => exact findAll_cons_some h

/-! ### Runs, junk skipping, and the canonical address -/

theorem runLen_cons_junk {b : Nat} (hb : isBase32CI b = false) (s : List Nat) :
    runLen (b :: s) = 0 := by
  rw [runLen, if_neg (by simp [hb])]

theorem findMatchLen_cons_junk {b : Nat} (hb : isBase32CI b = false) (rest : List Nat) :
    findMatchLen (b :: rest) = none := by
  rw [findMatchLen, runLen_cons_junk hb]
  rfl

theorem findAll_cons_junk {b : Nat} (hb : isBase32CI b = false) (rest : List Nat) :
    findAll (b :: rest) = findAll rest :=
  findAll_cons_none (findMatchLen_cons_junk hb rest)

theorem findAll_replicate_junk (n : Nat) {c : Nat} (hc : isBase32CI c = false)
    (s : List Nat) : findAll (List.replicate n c ++ s) = findAll s := by
  induction n with
  | zero => simp
  | succ n ih => rw [List.replicate_succ, List.cons_append, findAll_cons_junk hc, ih]

theorem findAll_replicate_junk_nil (n : Nat) {c : Nat} (hc : isBase32CI c = false) :
    findAll (List.replicate n c) = [] := by
  have := findAll_replicate_junk n hc []
  simpa using this

theorem runLen_append_all {l : List Nat} (h : ∀ b ∈ l, isBase32CI b = true)
    (s : List Nat) : runLen (l ++ s) = l.length + runLen s := by
  induction l with
  | nil => simp
  | cons b rest ih =>
    rw [List.cons_append, runLen, if_pos (h b (by simp))]
    rw [ih (fun x hx => h x (by simp [hx]))]
    simp only [List.length_cons]
    omega

/-- The canonical well-shaped address used in the concrete test contents:
56 `a` bytes followed by ".onion". -/
def addrBytes : List Nat := List.replicate 56 97 ++ dotOnion

theorem addrBytes_length : addrBytes.length = 62 := by
  simp [addrBytes, dotOnion]

theorem startsWithCI_dotOnion_append (s : List Nat) :
    startsWithCI dotOnion (dotOnion ++ s) = true := by
  simp [startsWithCI, dotOnion, toLowerB]

theorem runLen_dotOnion_append (s : List Nat) : runLen (dotOnion ++ s) = 0 := by
  have : dotOnion ++ s = 46 :: ([111, 110, 105, 111, 110] ++ s) := by simp [dotOnion]
  rw [this]
  exact runLen_cons_junk (by decide) _

theorem runLen_addr_append (s : List Nat) : runLen (addrBytes ++ s) = 56 := by
  rw [addrBytes, List.append_assoc,
    runLen_append_all (fun b hb => by rw [List.eq_of_mem_replicate hb]; decide) _,
    runLen_dotOnion_append]
  simp

theorem findMatchLen_addr_append (s : List Nat) :
    findMatchLen (addrBytes ++ s) = some 62 := by
  rw [findMatchLen, runLen_addr_append]
  show matchAtAux _ (55 + 1) = _
  rw [matchAtAux]
  have hdrop : (addrBytes ++ s).drop 56 = dotOnion ++ s := by
    rw [addrBytes, List.append_assoc]
    exact List.drop_left' (by simp)
  rw [if_neg (by omega), hdrop, if_pos (startsWithCI_dotOnion_append s)]

theorem findAll_addr_append (s : List Nat) :
    findAll (addrBytes ++ s) = addrBytes :: findAll s := by
  have h := findMatchLen_addr_append s
  have hne : addrBytes ++ s ≠ [] := by simp [addrBytes]
  rw [findAll_eq_of_some hne h, List.take_left' addrBytes_length,
    List.drop_left' addrBytes_length]

theorem toLowerBytes_addr : toLowerBytes addrBytes = addrBytes := by
  decide

theorem isGenericOnion_addr : isGenericOnion addrBytes = false := by
  decide

/-! ### Claim C1: the UTF-16LE decision rule -/

/-- C1, counterexample. On the sample `[65, 0, 65, 65]` exactly one of its
two odd-indexed bytes is zero (50% > 25%), and there is no BOM, so the
claimed decision rule classifies it UTF16LE; the classifier nevertheless
returns RAW, because the code compares the zero count against a quarter of
the whole sample size (`nullCount > sampleSize/4`), not against a quarter
of the number of odd-indexed bytes. -/
theorem detectUTF16LE_claim_counterexample :
    detectUTF16LE [65, 0, 65, 65] = false ∧
      ¬(([65, 0, 65, 65] : List Nat).getD 0 0 = 255 ∧
        ([65, 0, 65, 65] : List Nat).getD 1 0 = 254) ∧
      (([65, 0, 65, 65] : List Nat).take 200).length / 2 <
        4 * zeroOddCount (([65, 0, 65, 65] : List Nat).take 200) := by
  decide

/-- C1, amended: the classifier returns UTF16LE iff the sample has at least
two bytes and either (a) the first two bytes are 0xFF, 0xFE, or (b) the
number of zero odd-indexed bytes within the first 200 sampled bytes
exceeds a quarter of the sampled size `min(len, 200)` (equivalently, more
than 50% of the odd-indexed bytes are zero) — not a quarter of the number
of odd-indexed bytes as the claim states; in every other case it returns
RAW. -/
theorem detectUTF16LE_decision_rule (data : List Nat) :
    detectUTF16LE data = true ↔
      2 ≤ data.length ∧
        ((data.getD 0 0 = 255 ∧ data.getD 1 0 = 254) ∨
          min data.length 200 / 4 < zeroOddCount (data.take 200)) := by
  rw [detectUTF16LE]
  split_ifs with h1 h2
  · simp only [Bool.false_eq_true, false_iff]
    intro hc
    omega
  · simp only [true_iff]
    exact ⟨by omega, Or.inl h2⟩
  · simp only [decide_eq_true_eq]
    constructor
    · intro h
      exact ⟨by omega, Or.inr h⟩
    · rintro ⟨hlen, h | h⟩
      · exact absurd h h2
      · exact h

/-! ### Step lemmas for the chunk loops -/

theorem runChunked_cons (path : List Nat) (r : ReadStep) (rest : List ReadStep)
    (ov : List Nat) (acc : FileAcc) :
    runChunked path (r :: rest) ov acc =
      if r.bytes.length = 0 then acc
      else if r.isErr = true then addMatches path acc (scanChunk (ov ++ r.bytes))
      else runChunked path rest
        (if ChunkOverlap < (ov ++ r.bytes).length
          then (ov ++ r.bytes).drop ((ov ++ r.bytes).length - ChunkOverlap) else ov)
        (addMatches path acc (scanChunk (ov ++ r.bytes))) := rfl

theorem goChunkLoop_succ (path : List Nat) (fuel : Nat) (remaining overlap : List Nat)
    (acc : FileAcc) :
    goChunkLoop path (fuel + 1) remaining overlap acc =
      if (remaining.take (ChunkSize + ChunkOverlap - overlap.length)).length = 0 then acc
      else
        goChunkLoop path fuel
          (remaining.drop (ChunkSize + ChunkOverlap - overlap.length))
          (if ChunkOverlap <
              (overlap ++ remaining.take (ChunkSize + ChunkOverlap - overlap.length)).length
            then (overlap ++ remaining.take (ChunkSize + ChunkOverlap - overlap.length)).drop
              ((overlap ++ remaining.take (ChunkSize + ChunkOverlap - overlap.length)).length -
                ChunkOverlap)
            else overlap)
          (addMatches path acc
            (scanChunk (overlap ++
              remaining.take (ChunkSize + ChunkOverlap - overlap.length)))) := rfl

/-- For a non-empty file that fits into one read request (at most
`ChunkSize + ChunkOverlap` bytes), the chunked scan is a single
`scanChunk` pass over the whole content. -/
theorem scanFileChunkedGo_small {content : List Nat} (path : List Nat)
    (h1 : content ≠ []) (h2 : content.length ≤ ChunkSize + ChunkOverlap) :
    scanFileChunkedGo path content =
      (addMatches path ⟨[], []⟩ (scanChunk content)).results := by
  cases content with
  | nil => exact absurd rfl h1
  | cons b rest =>
    rw [scanFileChunkedGo]
    have hreq : ChunkSize + ChunkOverlap - (List.length ([] : List Nat)) =
        ChunkSize + ChunkOverlap := by simp
    rw [List.length_cons, goChunkLoop_succ, hreq]
    have htake : (b :: rest).take (ChunkSize + ChunkOverlap) = b :: rest :=
      List.take_of_length_le h2
    rw [htake]
    rw [if_neg (by simp)]
    have hdrop : (b :: rest).drop (ChunkSize + ChunkOverlap) = [] :=
      List.drop_eq_nil_of_le h2
    rw [hdrop, goChunkLoop_succ]
    rw [if_pos (by simp)]
    simp only [List.nil_append]

/-! ### addMatch / addMatches lemmas -/

theorem addMatches_nil (path : List Nat) (acc : FileAcc) : addMatches path acc [] = acc := rfl

theorem addMatch_results_mem {path : List Nat} {acc : FileAcc} {m : List Nat} {o : Onion}
    (h : o ∈ (addMatch path acc m).results) :
    o ∈ acc.results ∨
      (o.value = toLowerBytes m ∧ o.path = path ∧ isGenericOnion o.value = false) := by
  rw [addMatch] at h
  split_ifs at h with hg hs
  · exact Or.inl h
  · exact Or.inl h
  · simp only at h
    rcases List.mem_append.mp h with h | h
    · exact Or.inl h
    · right
      rcases List.mem_singleton.mp h with rfl
      refine ⟨rfl, rfl, ?_⟩
      simpa using hg

theorem addMatches_results_mem :
    ∀ (ms : List (List Nat)) (path : List Nat) (acc : FileAcc) (o : Onion),
    o ∈ (addMatches path acc ms).results →
    o ∈ acc.results ∨
      ∃ m ∈ ms, o.value = toLowerBytes m ∧ o.path = path ∧ isGenericOnion o.value = false := by
  intro ms
  induction ms with
  | nil =>
    intro path acc o h
    exact Or.inl h
  | cons m rest ih =>
    intro path acc o h
    rw [addMatches, List.foldl_cons] at h
    rcases ih path (addMatch path acc m) o h with h' | ⟨m', hm', hv⟩
    · rcases addMatch_results_mem h' with h'' | h''
      · exact Or.inl h''
      · exact Or.inr ⟨m, by simp, h''⟩
    · exact Or.inr ⟨m', by simp [hm'], hv⟩

/-- The per-file invariant: every recorded value is in the seen set and
values are pairwise distinct. -/
def accInv (acc : FileAcc) : Prop :=
  (∀ o ∈ acc.results, o.value ∈ acc.seen) ∧
    acc.results.Pairwise (fun a b => a.value ≠ b.value)

theorem addMatch_inv {path : List Nat} {acc : FileAcc} {m : List Nat}
    (h : accInv acc) : accInv (addMatch path acc m) := by
  obtain ⟨hseen, hpw⟩ := h
  rw [addMatch]
  split_ifs with hg hs
  · exact ⟨hseen, hpw⟩
  · exact ⟨hseen, hpw⟩
  · constructor
    · intro o ho
      simp only [List.mem_append, List.mem_singleton] at ho ⊢
      rcases ho with ho | ho
      · exact Or.inl (hseen o ho)
      · subst ho
        exact Or.inr rfl
    · rw [List.pairwise_append]
      refine ⟨hpw, List.pairwise_singleton _ _, ?_⟩
      intro a ha b hb
      rcases List.mem_singleton.mp hb with rfl
      intro hv
      have hv' : a.value = toLowerBytes m := hv
      exact hs (hv' ▸ hseen a ha)

theorem addMatches_inv :
    ∀ (ms : List (List Nat)) (path : List Nat) (acc : FileAcc),
    accInv acc → accInv (addMatches path acc ms) := by
  intro ms
  induction ms with
  | nil => intro path acc h; exact h
  | cons m rest ih =>
    intro path acc h
    rw [addMatches, List.foldl_cons]
    exact ih path _ (addMatch_inv h)

theorem goChunkLoop_inv :
    ∀ (fuel : Nat) (path remaining ov : List Nat) (acc : FileAcc),
    accInv acc → accInv (goChunkLoop path fuel remaining ov acc) := by
  intro fuel
  induction fuel with
  | zero => intro path remaining ov acc h; exact h
  | succ fuel ih =>
    intro path remaining ov acc h
    rw [goChunkLoop_succ]
    by_cases h0 : (remaining.take (ChunkSize + ChunkOverlap - ov.length)).length = 0
    · rw [if_pos h0]
      exact h
    · rw [if_neg h0]
      exact ih path _ _ _ (addMatches_inv _ _ _ h)

theorem goChunkLoop_results_mem :
    ∀ (fuel : Nat) (path remaining ov : List Nat) (acc : FileAcc) (o : Onion),
    o ∈ (goChunkLoop path fuel remaining ov acc).results →
    o ∈ acc.results ∨
      ∃ data m, m ∈ scanChunk data ∧ o.value = toLowerBytes m ∧ o.path = path ∧
        isGenericOnion o.value = false := by
  intro fuel
  induction fuel with
  | zero => intro path remaining ov acc o h; exact Or.inl h
  | succ fuel ih =>
    intro path remaining ov acc o h
    rw [goChunkLoop_succ] at h
    by_cases h0 : (remaining.take (ChunkSize + ChunkOverlap - ov.length)).length = 0
    · rw [if_pos h0] at h
      exact Or.inl h
    · rw [if_neg h0] at h
      rcases ih path _ _ _ o h with h' | h'
      · rcases addMatches_results_mem _ _ _ _ h' with h'' | ⟨m, hm, hv⟩
        · exact Or.inl h''
        · exact Or.inr ⟨_, m, hm, hv⟩
      · exact Or.inr h'

/-! ### buildResults lemmas -/

theorem buildResultsAux_subset :
    ∀ (records acc : List Onion) (o : Onion),
    o ∈ records.foldl
      (fun acc o => if acc.any (fun r => keyOf r = keyOf o) then acc else acc ++ [o]) acc →
    o ∈ acc ∨ o ∈ records := by
  intro records
  induction records with
  | nil => intro acc o h; exact Or.inl h
  | cons r rest ih =>
    intro acc o h
    rw [List.foldl_cons] at h
    rcases ih _ o h with h' | h'
    · split_ifs at h' with hc
      · exact Or.inl h'
      · rcases List.mem_append.mp h' with h'' | h''
        · exact Or.inl h''
        · rcases List.mem_singleton.mp h'' with rfl
          exact Or.inr (by simp)
    · exact Or.inr (by simp [h'])

theorem buildResults_subset {records : List Onion} {o : Onion}
    (h : o ∈ buildResults records) : o ∈ records := by
  rcases buildResultsAux_subset records [] o h with h' | h'
  · simp at h'
  · exact h'

theorem buildResultsAux_pairwise :
    ∀ (records acc : List Onion),
    acc.Pairwise (fun a b => keyOf a ≠ keyOf b) →
    (records.foldl
      (fun acc o => if acc.any (fun r => keyOf r = keyOf o) then acc else acc ++ [o])
      acc).Pairwise (fun a b => keyOf a ≠ keyOf b) := by
  intro records
  induction records with
  | nil => intro acc h; exact h
  | cons r rest ih =>
    intro acc h
    rw [List.foldl_cons]
    split_ifs with hc
    · exact ih acc h
    · apply ih
      rw [List.pairwise_append]
      refine ⟨h, List.pairwise_singleton _ _, ?_⟩
      intro a ha b hb
      rcases List.mem_singleton.mp hb with rfl
      simp only [List.any_eq_true, decide_eq_true_eq, not_exists, not_and] at hc
      exact fun hk => (hc a ha) hk

theorem keyOf_inj :
    ∀ (v1 : List Nat) (p1 : List Nat) (v2 p2 : List Nat),
    (124 : Nat) ∉ v1 → (124 : Nat) ∉ v2 →
    v1 ++ 124 :: p1 = v2 ++ 124 :: p2 → v1 = v2 ∧ p1 = p2 := by
  intro v1
  induction v1 with
  | nil =>
    intro p1 v2 p2 _ h2 h
    cases v2 with
    | nil => simpa using h
    | cons b v2' =>
      simp only [List.nil_append, List.cons_append, List.cons.injEq] at h
      exfalso
      apply h2
      rw [← h.1]
      exact List.mem_cons_self _ _
  | cons a v1' ih =>
    intro p1 v2 p2 h1 h2 h
    cases v2 with
    | nil =>
      simp only [List.cons_append, List.nil_append, List.cons.injEq] at h
      exfalso
      apply h1
      rw [h.1]
      exact List.mem_cons_self _ _
    | cons b v2' =>
      simp only [List.cons_append, List.cons.injEq] at h
      obtain ⟨hab, htail⟩ := h
      obtain ⟨hv, hp⟩ := ih p1 v2' p2 (fun hx => h1 (by simp [hx])) (fun hx => h2 (by simp [hx])) htail
      exact ⟨by rw [hab, hv], hp⟩

theorem buildResultsAux_mem :
    ∀ (records acc : List Onion),
    (∀ r ∈ acc, (124 : Nat) ∉ r.value) → (∀ r ∈ records, (124 : Nat) ∉ r.value) →
    ∀ o, o ∈ records.foldl
      (fun acc o => if acc.any (fun r => keyOf r = keyOf o) then acc else acc ++ [o]) acc ↔
      (o ∈ acc ∨ o ∈ records) := by
  intro records
  induction records with
  | nil =>
    intro acc _ _ o
    simp
  | cons r rest ih =>
    intro acc hacc hrec o
    rw [List.foldl_cons]
    split_ifs with hc
    · rw [ih acc hacc (fun x hx => hrec x (by simp [hx])) o]
      simp only [List.mem_cons]
      constructor
      · rintro (h | h)
        · exact Or.inl h
        · exact Or.inr (Or.inr h)
      · rintro (h | h | h)
        · exact Or.inl h
        · subst h
          simp only [List.any_eq_true, decide_eq_true_eq] at hc
          obtain ⟨a, ha, hk⟩ := hc
          have h124a : (124 : Nat) ∉ a.value := hacc a ha
          have h124o : (124 : Nat) ∉ o.value := hrec o (by simp)
          obtain ⟨hv, hp⟩ := keyOf_inj a.value a.path o.value o.path h124a h124o hk
          have : a = o := by
            cases a; cases o
            simp only at hv hp
            simp [hv, hp]
          exact Or.inl (this ▸ ha)
        · exact Or.inr h
    · have hacc' : ∀ x ∈ acc ++ [r], (124 : Nat) ∉ x.value := by
        intro x hx
        rcases List.mem_append.mp hx with hx | hx
        · exact hacc x hx
        · rcases List.mem_singleton.mp hx with rfl
          exact hrec x (by simp)
      rw [ih (acc ++ [r]) hacc' (fun x hx => hrec x (by simp [hx])) o]
      simp only [List.mem_append, List.mem_singleton, List.mem_cons]
      tauto

theorem buildResults_mem {records : List Onion}
    (h : ∀ r ∈ records, (124 : Nat) ∉ r.value) (o : Onion) :
    o ∈ buildResults records ↔ o ∈ records := by
  rw [buildResults, buildResultsAux_mem records [] (by simp) h o]
  simp

/-! ### Per-file and pipeline membership lemmas -/

theorem scanFile_values_pairwise (content path : List Nat) :
    (scanFile content path).Pairwise (fun a b => a.value ≠ b.value) := by
  have hinv : accInv ⟨[], []⟩ := ⟨by intro o ho; simp at ho, List.Pairwise.nil⟩
  rw [scanFile]
  split_ifs with h0 hdet
  · exact List.Pairwise.nil
  · exact (addMatches_inv _ _ _ hinv).2
  · rw [scanFileChunkedGo]
    exact (goChunkLoop_inv _ _ _ _ _ hinv).2

theorem scanFile_mem {content path : List Nat} {o : Onion} (h : o ∈ scanFile content path) :
    wellFormedValue o.value = true ∧ isGenericOnion o.value = false ∧ o.path = path := by
  rw [scanFile] at h
  split_ifs at h with h0 hdet
  · simp at h
  · rcases addMatches_results_mem _ _ _ _ h with h' | ⟨m, hm, hv, hp, hg⟩
    · simp at h'
    · refine ⟨?_, hg, hp⟩
      rw [hv]
      exact findAll_value_wellFormed hm
  · rw [scanFileChunkedGo] at h
    rcases goChunkLoop_results_mem _ _ _ _ _ _ h with h' | ⟨data, m, hm, hv, hp, hg⟩
    · simp at h'
    · refine ⟨?_, hg, hp⟩
      rw [hv]
      rw [scanChunk] at hm
      rcases List.mem_append.mp hm with hm' | hm'
      · exact findAll_value_wellFormed hm'
      · exact findAll_value_wellFormed hm'

theorem fnameAux_mem :
    ∀ (ms : List (List Nat)) (p : List Nat) (acc : List Onion) (o : Onion),
    o ∈ ms.foldl
      (fun acc m =>
        let value := toLowerBytes m
        if isGenericOnion value then acc else acc ++ [⟨value, p⟩]) acc →
    o ∈ acc ∨
      ∃ m ∈ ms, o.value = toLowerBytes m ∧ o.path = p ∧ isGenericOnion o.value = false := by
  intro ms
  induction ms with
  | nil => intro p acc o h; exact Or.inl h
  | cons m rest ih =>
    intro p acc o h
    rw [List.foldl_cons] at h
    rcases ih p _ o h with h' | ⟨m', hm', hv⟩
    · simp only at h'
      split_ifs at h' with hg
      · exact Or.inl h'
      · rcases List.mem_append.mp h' with h'' | h''
        · exact Or.inl h''
        · rcases List.mem_singleton.mp h'' with rfl
          exact Or.inr ⟨m, by simp, rfl, rfl, by simpa using hg⟩
    · exact Or.inr ⟨m', by simp [hm'], hv⟩

theorem fnameRecords_mem {p : List Nat} {o : Onion} (h : o ∈ fnameRecords p) :
    wellFormedValue o.value = true ∧ isGenericOnion o.value = false ∧ o.path = p := by
  rw [fnameRecords] at h
  rcases fnameAux_mem _ _ _ _ h with h' | ⟨m, hm, hv, hp, hg⟩
  · simp at h'
  · refine ⟨?_, hg, hp⟩
    rw [hv]
    exact findAll_value_wellFormed hm

mutual
theorem walkT_records_mem (excl : List (List Nat)) (p : List Nat) (t : FSTree) :
    ∀ o ∈ (walkT excl p t).records, ∃ q, o ∈ fnameRecords q := by
  cases t with
  | file n c =>
    intro o ho
    rw [walkT] at ho
    split_ifs at ho
    · simp at ho
    · exact ⟨p, ho⟩
    · exact ⟨p, ho⟩
  | dir n entries =>
    intro o ho
    rw [walkT] at ho
    split_ifs at ho
    · simp at ho
    · simp only at ho
      rcases List.mem_append.mp ho with h | h
      · exact ⟨p, h⟩
      · exact walkL_records_mem excl p entries o h
theorem walkL_records_mem (excl : List (List Nat)) (p : List Nat) (l : FSList) :
    ∀ o ∈ (walkL excl p l).records, ∃ q, o ∈ fnameRecords q := by
  cases l with
  | nil => intro o ho; simp [walkL] at ho
  | cons t ts =>
    intro o ho
    rw [walkL] at ho
    simp only at ho
    rcases List.mem_append.mp ho with h | h
    · exact walkT_records_mem excl _ t o h
    · exact walkL_records_mem excl p ts o h
end

mutual
theorem walkT_jobs_not_excluded (excl : List (List Nat)) (p : List Nat) (t : FSTree) :
    ∀ j ∈ (walkT excl p t).jobs, isExcludedPath j.1 excl = false := by
  cases t with
  | file n c =>
    intro j hj
    rw [walkT] at hj
    split_ifs at hj with hex hsz
    · simp at hj
    · rcases List.mem_singleton.mp hj with rfl
      simpa using hex
    · simp at hj
  | dir n entries =>
    intro j hj
    rw [walkT] at hj
    split_ifs at hj with hex
    · simp at hj
    · exact walkL_jobs_not_excluded excl p entries j hj
theorem walkL_jobs_not_excluded (excl : List (List Nat)) (p : List Nat) (l : FSList) :
    ∀ j ∈ (walkL excl p l).jobs, isExcludedPath j.1 excl = false := by
  cases l with
  | nil => intro j hj; simp [walkL] at hj
  | cons t ts =>
    intro j hj
    rw [walkL] at hj
    simp only at hj
    rcases List.mem_append.mp hj with h | h
    · exact walkT_jobs_not_excluded excl _ t j h
    · exact walkL_jobs_not_excluded excl p ts j h
end

theorem walkT_excluded {excl : List (List Nat)} {p : List Nat} (t : FSTree)
    (h : isExcludedPath p excl = true) : walkT excl p t = ⟨[p], [], []⟩ := by
  cases t with
  | file n c => rw [walkT, if_pos h]
  | dir n entries => rw [walkT, if_pos h]

/-! ### Claim C3: no duplicate (value, path) records -/

set_option maxRecDepth 40000 in
/-- C3: (1) the merged result collection never holds two records with the
same `(value, path)` pair; (2) per-file scanning yields pairwise-distinct
values, so an address occurring twice in one file is recorded at most
once; (3) a concrete file containing the same address twice yields exactly
one record; (4) the same value under two distinct paths yields one record
per path. -/
theorem resultSet_dedup_invariant :
    (∀ records : List Onion,
      (buildResults records).Pairwise (fun a b => ¬(a.value = b.value ∧ a.path = b.path))) ∧
    (∀ content path : List Nat,
      (scanFile content path).Pairwise (fun a b => a.value ≠ b.value)) ∧
    (∀ path : List Nat,
      scanFile (addrBytes ++ 45 :: addrBytes) path = [⟨addrBytes, path⟩]) ∧
    (∀ v p1 p2 : List Nat, p1 ≠ p2 →
      buildResults [⟨v, p1⟩, ⟨v, p2⟩] = [⟨v, p1⟩, ⟨v, p2⟩]) := by
  refine ⟨?_, scanFile_values_pairwise, ?_, ?_⟩
  · intro records
    have h := buildResultsAux_pairwise records [] List.Pairwise.nil
    exact h.imp (fun {a b} hk hab => hk (by rw [keyOf, keyOf, hab.1, hab.2]))
  · intro path
    have h0 : (addrBytes ++ 45 :: addrBytes) ≠ [] := by simp [addrBytes]
    have hlen : (addrBytes ++ 45 :: addrBytes).length = 125 := by
      simp [addrBytes, dotOnion]
    rw [scanFile, if_neg (by rw [hlen]; omega),
      if_neg (by rw [show detectUTF16LE ((addrBytes ++ 45 :: addrBytes).take 4096) = false
        from by decide]; simp)]
    rw [scanFileChunkedGo_small path h0 (by rw [hlen]; decide)]
    rw [show scanChunk (addrBytes ++ 45 :: addrBytes) =
      [addrBytes, addrBytes, addrBytes, addrBytes] from by decide]
    simp [addMatches, addMatch, List.foldl_cons, List.foldl_nil, toLowerBytes_addr,
      isGenericOnion_addr]
  · intro v p1 p2 hne
    have hk : keyOf ⟨v, p1⟩ ≠ keyOf ⟨v, p2⟩ := by
      simp only [keyOf]
      intro h
      exact hne (List.cons.inj (List.append_cancel_left h)).2
    rw [buildResults]
    simp [hk]

/-- Witness for C3 at concrete inputs. -/
theorem resultSet_dedup_invariant_witness :
    ((buildResults [Onion.mk addrBytes [47]]).Pairwise
      (fun a b => ¬(a.value = b.value ∧ a.path = b.path))) ∧
    ((47 : Nat) :: [] ≠ [48]) ∧
    buildResults [Onion.mk addrBytes [47], Onion.mk addrBytes [48]] =
      [Onion.mk addrBytes [47], Onion.mk addrBytes [48]] :=
  ⟨resultSet_dedup_invariant.1 _, by decide,
    resultSet_dedup_invariant.2.2.2 addrBytes [47] [48] (by decide)⟩

/-! ### Claim C9: the final result set is order- and schedule-independent -/

/-- C9: per-file scanning is a pure function of the file content and path
(so any worker produces the same records for a given file), and the set of
records surviving the global merge is invariant under permuting the order
in which candidate records reach the merge step — hence the final result
set does not depend on worker count or scheduling. The hypothesis that
values do not contain the byte `|` (124) holds for every produced record
(their values match the address pattern). -/
theorem result_set_order_independent (records records' : List Onion)
    (h124 : ∀ r ∈ records, (124 : Nat) ∉ r.value)
    (hperm : records.Perm records') (o : Onion) :
    o ∈ buildResults records ↔ o ∈ buildResults records' := by
  have h124' : ∀ r ∈ records', (124 : Nat) ∉ r.value := fun r hr =>
    h124 r (hperm.mem_iff.mpr hr)
  rw [buildResults_mem h124 o, buildResults_mem h124' o]
  exact hperm.mem_iff

/-- Witness for C9 at a concrete pair of merge orders. -/
theorem result_set_order_independent_witness :
    (∀ r ∈ [Onion.mk addrBytes [], Onion.mk addrBytes [47]], (124 : Nat) ∉ r.value) ∧
    ([Onion.mk addrBytes [], Onion.mk addrBytes [47]].Perm
      [Onion.mk addrBytes [47], Onion.mk addrBytes []]) ∧
    (Onion.mk addrBytes [] ∈
        buildResults [Onion.mk addrBytes [], Onion.mk addrBytes [47]] ↔
      Onion.mk addrBytes [] ∈
        buildResults [Onion.mk addrBytes [47], Onion.mk addrBytes []]) :=
  ⟨by decide, by decide,
    result_set_order_independent _ _ (by decide) (by decide) _⟩

/-! ### Claim C4: every final record is well-formed and not denylisted -/

/-- C4: every record in the final result collection — whether produced by
content scanning or by filename matching — has a lowercase-normalized
value of valid onion-address shape (a base32 run of length at least 56
followed by ".onion") and is not a denylisted generic address under
case-insensitive comparison. -/
theorem results_wellformed_not_generic (root : List Nat) (t : FSTree) (o : Onion)
    (h : o ∈ ScanForOnionsModel root t) :
    wellFormedValue o.value = true ∧ isGenericOnion o.value = false := by
  rw [ScanForOnionsModel] at h
  have h' := buildResults_subset h
  rcases List.mem_append.mp h' with h' | h'
  · obtain ⟨q, hq⟩ := walkT_records_mem _ _ _ o h'
    obtain ⟨h1, h2, h3⟩ := fnameRecords_mem hq
    exact ⟨h1, h2⟩
  · rw [List.mem_flatten] at h'
    obtain ⟨l, hl, hol⟩ := h'
    rw [List.mem_map] at hl
    obtain ⟨j, hj, rfl⟩ := hl
    obtain ⟨h1, h2, h3⟩ := scanFile_mem hol
    exact ⟨h1, h2⟩

set_option maxRecDepth 100000 in
/-- Witness for C4 on a concrete one-file tree containing one address. -/
theorem results_wellformed_not_generic_witness :
    (Onion.mk addrBytes (strB "/r/f") ∈
      ScanForOnionsModel (strB "/r")
        (FSTree.dir (strB "r") (FSList.cons (FSTree.file (strB "f") addrBytes) FSList.nil))) ∧
    (wellFormedValue (Onion.mk addrBytes (strB "/r/f")).value = true ∧
      isGenericOnion (Onion.mk addrBytes (strB "/r/f")).value = false) :=
  ⟨by decide,
    results_wellformed_not_generic (strB "/r")
      (FSTree.dir (strB "r") (FSList.cons (FSTree.file (strB "f") addrBytes) FSList.nil))
      (Onion.mk addrBytes (strB "/r/f")) (by decide)⟩

/-! ### Claim C6: path exclusion -/

/-- C6: (1) a path is classified excluded iff its case-folded cleaned form
starts with one of the excluded prefixes; (2) those prefixes are exactly
the four fixed subtrees joined onto the cleaned scan root (Windows,
Program Files, Program Files (x86), PerfLogs); (3) no queued job has an
excluded path; (4) an excluded entry's whole subtree contributes nothing:
it is visited once, not recursed into, queues no jobs and produces no
records. -/
theorem exclusion_filter_correct :
    (∀ (path : List Nat) (excl : List (List Nat)),
      isExcludedPath path excl = true ↔
        ∃ e ∈ excl,
          hasPrefixB (toLowerBytes (filepathClean path))
            (toLowerBytes (filepathClean e)) = true) ∧
    (∀ root : List Nat, buildExcludedPaths root =
      [filepathJoin (filepathClean root) (strB "Windows"),
       filepathJoin (filepathClean root) (strB "Program Files"),
       filepathJoin (filepathClean root) (strB "Program Files (x86)"),
       filepathJoin (filepathClean root) (strB "PerfLogs")]) ∧
    (∀ (excl : List (List Nat)) (p : List Nat) (t : FSTree),
      ∀ j ∈ (walkT excl p t).jobs, isExcludedPath j.1 excl = false) ∧
    (∀ (excl : List (List Nat)) (p : List Nat) (t : FSTree),
      isExcludedPath p excl = true → walkT excl p t = ⟨[p], [], []⟩) := by
  refine ⟨?_, fun root => rfl, walkT_jobs_not_excluded, fun excl p t h => walkT_excluded t h⟩
  intro path excl
  rw [isExcludedPath]
  simp [List.any_eq_true]

set_option maxRecDepth 100000 in
/-- Witness for C6: a tree with a Windows subtree containing a file; the
subtree is pruned, the other file is queued with a non-excluded path. -/
theorem exclusion_filter_correct_witness :
    ((strB "/r/f", addrBytes) ∈
      (walkT (buildExcludedPaths (strB "/r")) (strB "/r")
        (FSTree.dir (strB "r")
          (FSList.cons (FSTree.dir (strB "Windows")
              (FSList.cons (FSTree.file (strB "w") addrBytes) FSList.nil))
            (FSList.cons (FSTree.file (strB "f") addrBytes) FSList.nil)))).jobs) ∧
    (isExcludedPath (strB "/r/f") (buildExcludedPaths (strB "/r")) = false) ∧
    (isExcludedPath (strB "/r/Windows") (buildExcludedPaths (strB "/r")) = true) ∧
    (walkT (buildExcludedPaths (strB "/r")) (strB "/r/Windows")
        (FSTree.dir (strB "Windows")
          (FSList.cons (FSTree.file (strB "w") addrBytes) FSList.nil)) =
      ⟨[strB "/r/Windows"], [], []⟩) :=
  ⟨by decide,
    exclusion_filter_correct.2.2.1 (buildExcludedPaths (strB "/r")) (strB "/r")
      (FSTree.dir (strB "r")
        (FSList.cons (FSTree.dir (strB "Windows")
            (FSList.cons (FSTree.file (strB "w") addrBytes) FSList.nil))
          (FSList.cons (FSTree.file (strB "f") addrBytes) FSList.nil)))
      (strB "/r/f", addrBytes) (by decide),
    by decide,
    exclusion_filter_correct.2.2.2 (buildExcludedPaths (strB "/r")) (strB "/r/Windows")
      (FSTree.dir (strB "Windows")
        (FSList.cons (FSTree.file (strB "w") addrBytes) FSList.nil)) (by decide)⟩

/-! ### Claim C5: the cleansed projection -/

/-- State-passing reformulation of the `extractOnionChars` loop: the state
is the last emitted byte (`none` while nothing was emitted). -/
def extractRec (last : Option Nat) : List Nat → List Nat
  | [] => []
  | b :: rest =>
    if b = 0 then extractRec last rest
    else if isValidOnionChar b then toLowerB b :: extractRec (some (toLowerB b)) rest
    else if last ≠ none ∧ last ≠ some 32 then 32 :: extractRec (some 32) rest
    else extractRec last rest

theorem extractGo_eq : ∀ (data buf : List Nat),
    extractGo buf data = buf ++ extractRec buf.getLast? data := by
  intro data
  induction data with
  | nil => intro buf; simp [extractGo, extractRec]
  | cons b rest ih =>
    intro buf
    rw [extractGo, extractRec]
    by_cases h0 : b = 0
    · rw [if_pos h0, if_pos h0]
      exact ih buf
    · rw [if_neg h0, if_neg h0]
      by_cases hv : isValidOnionChar b = true
      · rw [if_pos hv, if_pos hv, ih (buf ++ [toLowerB b]), List.getLast?_concat,
          List.append_assoc]
        rfl
      · rw [if_neg hv, if_neg hv]
        by_cases hne : buf = []
        · subst hne
          rw [if_neg (by simp), if_neg (by simp)]
          exact ih []
        · by_cases hl : buf.getLast? = some 32
          · rw [if_neg (by simp [hl]), if_neg (by simp [hl])]
            exact ih buf
          · rw [if_pos ⟨hne, hl⟩, if_pos ⟨by simpa using hne, hl⟩,
              ih (buf ++ [32]), List.getLast?_concat, List.append_assoc]
            rfl

/-- The per-byte classification the claim describes: onion-alphabet bytes
are kept lowercased, every other byte becomes the separator (space). -/
def classifyTok (b : Nat) : Nat := if isValidOnionChar b then toLowerB b else 32

/-- Collapse consecutive separators to one. -/
def collapseSeps : List Nat → List Nat
  | [] => []
  | [b] => [b]
  | a :: b :: rest =>
    if a = 32 ∧ b = 32 then collapseSeps (b :: rest) else a :: collapseSeps (b :: rest)

/-- The cleansed projection exactly as the claim words it: null bytes are
dropped (not separators), the rest classified, consecutive separators
collapsed to one. -/
def cleanseClaim (data : List Nat) : List Nat :=
  collapseSeps ((data.filter (fun b => b != 0)).map classifyTok)

theorem collapseSeps_cons_ne {a : Nat} (ha : a ≠ 32) (t : List Nat) :
    collapseSeps (a :: t) = a :: collapseSeps t := by
  cases t with
  | nil => rfl
  | cons x xs => rw [collapseSeps, if_neg (by simp [ha])]

theorem dropWhile32_collapseSeps_cons (t : List Nat) :
    (collapseSeps (32 :: t)).dropWhile (fun b => b == 32) =
      (collapseSeps t).dropWhile (fun b => b == 32) := by
  induction t with
  | nil => rfl
  | cons a t' ih =>
    by_cases ha : a = 32
    · subst ha
      rw [show collapseSeps (32 :: 32 :: t') = collapseSeps (32 :: t') from by
        rw [collapseSeps, if_pos ⟨rfl, rfl⟩]]
    · rw [show collapseSeps (32 :: a :: t') = 32 :: collapseSeps (a :: t') from by
        rw [collapseSeps, if_neg (by simp [ha])]]
      simp [List.dropWhile_cons]

theorem collapseSeps_cons_32 (t : List Nat) :
    collapseSeps (32 :: t) = 32 :: (collapseSeps t).dropWhile (fun b => b == 32) := by
  induction t with
  | nil => rfl
  | cons a t' ih =>
    by_cases ha : a = 32
    · subst ha
      rw [show collapseSeps (32 :: 32 :: t') = collapseSeps (32 :: t') from by
        rw [collapseSeps, if_pos ⟨rfl, rfl⟩]]
      rw [dropWhile32_collapseSeps_cons t']
      exact ih
    · rw [show collapseSeps (32 :: a :: t') = 32 :: collapseSeps (a :: t') from by
        rw [collapseSeps, if_neg (by simp [ha])]]
      rw [collapseSeps_cons_ne ha, List.dropWhile_cons]
      simp [ha, collapseSeps_cons_ne ha]

theorem toLowerB_valid_ne_32 {b : Nat} (hv : isValidOnionChar b = true) :
    toLowerB b ≠ 32 := by
  simp only [isValidOnionChar, decide_eq_true_eq] at hv
  simp only [toLowerB]
  split <;> omega

theorem valid_ne_zero {b : Nat} (hv : isValidOnionChar b = true) : b ≠ 0 := by
  simp only [isValidOnionChar, decide_eq_true_eq] at hv
  omega

theorem extractRec_cons_valid {b : Nat} (hv : isValidOnionChar b = true)
    (last : Option Nat) (rest : List Nat) :
    extractRec last (b :: rest) = toLowerB b :: extractRec (some (toLowerB b)) rest := by
  rw [extractRec, if_neg (valid_ne_zero hv), if_pos hv]

theorem extractRec_cons_junk_none {b : Nat} (h0 : b ≠ 0) (hv : isValidOnionChar b = false)
    (rest : List Nat) : extractRec none (b :: rest) = extractRec none rest := by
  rw [extractRec, if_neg h0, if_neg (by simp [hv]), if_neg (by simp)]

theorem extractRec_cons_junk_32 {b : Nat} (h0 : b ≠ 0) (hv : isValidOnionChar b = false)
    (rest : List Nat) : extractRec (some 32) (b :: rest) = extractRec (some 32) rest := by
  rw [extractRec, if_neg h0, if_neg (by simp [hv]), if_neg (by simp)]

theorem extractRec_cons_junk_char {b c : Nat} (h0 : b ≠ 0) (hv : isValidOnionChar b = false)
    (hc : c ≠ 32) (rest : List Nat) :
    extractRec (some c) (b :: rest) = 32 :: extractRec (some 32) rest := by
  rw [extractRec, if_neg h0, if_neg (by simp [hv]), if_pos (by simp [hc])]

/-- The loop of `extractOnionChars`, described by the claim's
filter/classify/collapse pipeline; a leading separator (one produced
before any kept character) is additionally dropped by the loop. -/
theorem extractRec_eq_cleanse :
    ∀ (data : List Nat) (last : Option Nat),
    extractRec last data =
      if last = none ∨ last = some 32 then
        (collapseSeps ((data.filter (fun b => b != 0)).map classifyTok)).dropWhile
          (fun b => b == 32)
      else collapseSeps ((data.filter (fun b => b != 0)).map classifyTok) := by
  intro data
  induction data with
  | nil =>
    intro last
    split_ifs <;> rfl
  | cons b rest ih =>
    intro last
    by_cases h0 : b = 0
    · have hfilter : (b :: rest).filter (fun x => x != 0) =
          rest.filter (fun x => x != 0) := by
        simp [List.filter_cons, h0]
      rw [hfilter, show extractRec last (b :: rest) = extractRec last rest from by
        rw [extractRec, if_pos h0]]
      exact ih last
    · by_cases hv : isValidOnionChar b = true
      · have htoks : ((b :: rest).filter (fun x => x != 0)).map classifyTok =
            toLowerB b :: (rest.filter (fun x => x != 0)).map classifyTok := by
          simp [List.filter_cons, h0, classifyTok, hv]
        have hlb := toLowerB_valid_ne_32 hv
        rw [extractRec_cons_valid hv last, htoks, collapseSeps_cons_ne hlb,
          ih (some (toLowerB b)), if_neg (by simp [hlb])]
        split_ifs with hl
        · rw [List.dropWhile_cons, if_neg (by simp [hlb])]
        · rfl
      · have hv' : isValidOnionChar b = false := by simpa using hv
        have htoks : ((b :: rest).filter (fun x => x != 0)).map classifyTok =
            32 :: (rest.filter (fun x => x != 0)).map classifyTok := by
          simp [List.filter_cons, h0, classifyTok, hv']
        rw [htoks]
        cases last with
        | none =>
          rw [extractRec_cons_junk_none h0 hv', ih none, if_pos (Or.inl rfl),
            if_pos (Or.inl rfl)]
          exact (dropWhile32_collapseSeps_cons _).symm
        | some c =>
          by_cases hc : c = 32
          · subst hc
            rw [extractRec_cons_junk_32 h0 hv', ih (some 32), if_pos (Or.inr rfl),
              if_pos (Or.inr rfl)]
            exact (dropWhile32_collapseSeps_cons _).symm
          · rw [extractRec_cons_junk_char h0 hv' hc, ih (some 32), if_pos (Or.inr rfl),
              if_neg (by simp [hc]), collapseSeps_cons_32]

theorem extractRec_replicate_junk_none (n : Nat) {c : Nat} (h0 : c ≠ 0)
    (hv : isValidOnionChar c = false) (rest : List Nat) :
    extractRec none (List.replicate n c ++ rest) = extractRec none rest := by
  induction n with
  | zero => simp
  | succ n ih =>
    rw [List.replicate_succ, List.cons_append, extractRec_cons_junk_none h0 hv, ih]

theorem extractRec_replicate_junk_32 (n : Nat) {c : Nat} (h0 : c ≠ 0)
    (hv : isValidOnionChar c = false) (rest : List Nat) :
    extractRec (some 32) (List.replicate n c ++ rest) = extractRec (some 32) rest := by
  induction n with
  | zero => simp
  | succ n ih =>
    rw [List.replicate_succ, List.cons_append, extractRec_cons_junk_32 h0 hv, ih]

theorem extractRec_append_valid :
    ∀ (l : List Nat) (c : Nat), (∀ b ∈ l, isValidOnionChar b = true) →
      l.getLast? = some c → ∀ (last : Option Nat) (rest : List Nat),
      extractRec last (l ++ rest) = toLowerBytes l ++ extractRec (some (toLowerB c)) rest := by
  intro l
  induction l with
  | nil => intro c _ hc; simp at hc
  | cons b l' ih =>
    intro c hall hc last rest
    rw [List.cons_append, extractRec_cons_valid (hall b (by simp)) last]
    cases l' with
    | nil =>
      have hbc : b = c := by simpa using hc
      subst hbc
      simp [toLowerBytes]
    | cons x xs =>
      have hc' : (x :: xs).getLast? = some c := by
        rw [← List.getLast?_cons_cons]
        exact hc
      rw [ih c (fun y hy => hall y (by simp [hy])) hc' (some (toLowerB b)) rest]
      simp [toLowerBytes]

theorem extractRec_junk_tail {c : Nat} (hc : c ≠ 32) (m : Nat) (hm : 1 ≤ m) :
    extractRec (some c) (List.replicate m 45) = [32] := by
  cases m with
  | zero => omega
  | succ m' =>
    rw [List.replicate_succ, extractRec_cons_junk_char (by decide) (by decide) hc]
    have h := @extractRec_replicate_junk_32 m' 45 (by decide) (by decide) []
    rw [List.append_nil] at h
    rw [h]
    rfl

/-- A 4096-byte junk prefix (0x2D bytes) is classified RAW. -/
theorem detectUTF16LE_replicate45 : detectUTF16LE (List.replicate 4096 45) = false := by
  have hbom : ¬((List.replicate 4096 (45 : Nat)).getD 0 0 = 255 ∧
      (List.replicate 4096 (45 : Nat)).getD 1 0 = 254) := by
    rw [show (4096 : Nat) = 4094 + 1 + 1 from by norm_num, List.replicate_succ,
      List.replicate_succ]
    simp only [List.getD_cons_zero, List.getD_cons_succ]
    omega
  have hcnt : zeroOddCount ((List.replicate 4096 (45 : Nat)).take 200) = 0 := by
    rw [List.take_replicate]
    decide
  rw [detectUTF16LE, if_neg (by rw [List.length_replicate]; omega), if_neg hbom, hcnt,
    List.length_replicate]
  decide

/-- C5, counterexample. The claim says every byte outside the onion
alphabet becomes a separator (and consecutive separators collapse to one),
so on the single byte 0x21 the cleansed projection would be one separator;
the code's cleanser returns the empty string, because it never emits a
separator while its output buffer is still empty. -/
theorem extractOnionChars_claim_counterexample :
    extractOnionChars [33] = [] ∧ cleanseClaim [33] = [32] ∧ ([] : List Nat) ≠ [32] := by
  decide

set_option maxRecDepth 40000 in
/-- C5, amended: the cleanser maps every input byte sequence by dropping
null bytes entirely (not treating them as separators), keeping
onion-alphabet bytes with uppercase normalized to lowercase, turning every
other byte into a separator and collapsing consecutive separators to one —
except that separators produced before the first kept character are
dropped. Consequently a valid address with a null byte inserted between
every character is still extracted via the cleansed projection, both at
chunk level and for a whole RAW-classified file. -/
theorem extractOnionChars_cleansing_rule :
    (∀ data : List Nat,
      extractOnionChars data = (cleanseClaim data).dropWhile (fun b => b == 32)) ∧
    (addrBytes ∈ scanChunk (addrBytes.flatMap (fun b => [b, 0]))) ∧
    (∀ path : List Nat,
      scanFile (List.replicate 4096 45 ++ addrBytes.flatMap (fun b => [b, 0])) path =
        [⟨addrBytes, path⟩]) := by
  refine ⟨?_, by decide, ?_⟩
  · intro data
    rw [extractOnionChars, extractGo_eq data [], List.nil_append,
      show ([] : List Nat).getLast? = none from rfl,
      extractRec_eq_cleanse data none, if_pos (Or.inl rfl)]
    rfl
  · intro path
    have hlenI : (addrBytes.flatMap (fun b => [b, 0])).length = 124 := by decide
    have hlen0 :
        (List.replicate 4096 (45 : Nat) ++ addrBytes.flatMap (fun b => [b, 0])).length =
          4220 := by
      rw [List.length_append, List.length_replicate, hlenI]
    have htake :
        (List.replicate 4096 (45 : Nat) ++ addrBytes.flatMap (fun b => [b, 0])).take 4096 =
          List.replicate 4096 45 := List.take_left' (by rw [List.length_replicate])
    rw [scanFile, if_neg (by rw [hlen0]; omega),
      if_neg (by rw [htake, detectUTF16LE_replicate45]; simp)]
    rw [scanFileChunkedGo_small path (List.length_pos.mp (by rw [hlen0]; omega))
      (by rw [hlen0]; decide)]
    have hraw :
        findAll (List.replicate 4096 45 ++ addrBytes.flatMap (fun b => [b, 0])) = [] := by
      rw [findAll_replicate_junk 4096 (by decide)]
      decide
    have hclean :
        extractOnionChars (List.replicate 4096 45 ++ addrBytes.flatMap (fun b => [b, 0])) =
          addrBytes := by
      rw [extractOnionChars, extractGo_eq,
        show ([] : List Nat).getLast? = none from rfl, List.nil_append,
        extractRec_replicate_junk_none 4096 (by decide) (by decide)]
      decide
    rw [show scanChunk (List.replicate 4096 45 ++ addrBytes.flatMap (fun b => [b, 0])) =
        [addrBytes] from by
      rw [scanChunk, hraw, hclean, show findAll addrBytes = [addrBytes] from by decide]
      rfl]
    simp [addMatches, addMatch, List.foldl_cons, List.foldl_nil, toLowerBytes_addr,
      isGenericOnion_addr]

/-! ### Claim C7: UTF-16LE mode -/

theorem utf16Bytes_length (bs : List Nat) :
    (bs.flatMap (fun b => [b, 0])).length = 2 * bs.length := by
  induction bs with
  | nil => rfl
  | cons b rest ih =>
    rw [List.flatMap_cons, List.length_append, ih]
    simp only [List.length_cons, List.length_nil]
    omega

theorem utf16DecodeAux_cons_low {u : Nat} (h : u < 55296) (us : List Nat) :
    utf16DecodeAux (u :: us) = u :: utf16DecodeAux us := by
  cases us with
  | nil => simp [utf16DecodeAux, h]
  | cons u2 us' => simp [utf16DecodeAux, h]

theorem decode_pipeline_ascii :
    ∀ (bs : List Nat), (∀ b ∈ bs, b < 128) →
    ((utf16DecodeAux (toU16LE (bs.flatMap (fun b => [b, 0])))).map utf8Encode).flatten =
      bs := by
  intro bs
  induction bs with
  | nil => intro _; rfl
  | cons b rest ih =>
    intro hb
    have hb0 : b < 128 := hb b (by simp)
    rw [List.flatMap_cons,
      show ([b, 0] ++ rest.flatMap (fun b => [b, 0])) =
        b :: 0 :: rest.flatMap (fun b => [b, 0]) from rfl,
      toU16LE, show b + 256 * 0 = b from by omega,
      utf16DecodeAux_cons_low (by omega), List.map_cons, List.flatten_cons,
      show utf8Encode b = [b] from by rw [utf8Encode, if_pos hb0],
      ih (fun x hx => hb x (by simp [hx]))]
    rfl

theorem decodeUTF16LE_bom_ascii (bs : List Nat) (hb : ∀ b ∈ bs, b < 128) :
    decodeUTF16LE (255 :: 254 :: bs.flatMap (fun b => [b, 0])) = bs := by
  have hlen := utf16Bytes_length bs
  have hpar : ((255 :: 254 :: bs.flatMap (fun b => [b, 0])).length - 2) % 2 = 0 := by
    simp only [List.length_cons, hlen]
    omega
  rw [decodeUTF16LE]
  rw [if_neg (by simp only [List.length_cons]; omega)]
  simp only [List.getD_cons_zero, List.getD_cons_succ, and_self, if_true, hpar]
  norm_num
  exact decode_pipeline_ascii bs hb

theorem decodeUTF16LE_bom_ascii_oddtail (bs : List Nat) (hb : ∀ b ∈ bs, b < 128)
    (x : Nat) :
    decodeUTF16LE (255 :: 254 :: (bs.flatMap (fun b => [b, 0]) ++ [x])) = bs := by
  have hlen := utf16Bytes_length bs
  have htake : (255 :: 254 :: (bs.flatMap (fun b => [b, 0]) ++ [x])).take
      ((255 :: 254 :: (bs.flatMap (fun b => [b, 0]) ++ [x])).length - 1) =
      255 :: 254 :: bs.flatMap (fun b => [b, 0]) := by
    simp only [List.length_cons, List.length_append, List.length_nil, hlen]
    rw [show 2 * bs.length + 1 + 1 + 1 - 1 = (2 * bs.length + 1) + 1 from by omega]
    rw [List.take_succ_cons, List.take_succ_cons, List.take_left' hlen]
  have hpar :
      ((255 :: 254 :: (bs.flatMap (fun b => [b, 0]) ++ [x])).length - 2) % 2 = 1 := by
    simp only [List.length_cons, List.length_append, List.length_nil, hlen]
    omega
  rw [decodeUTF16LE]
  rw [if_neg (by simp only [List.length_cons]; omega)]
  simp only [List.getD_cons_zero, List.getD_cons_succ, and_self, if_true, hpar, htake]
  norm_num
  exact decode_pipeline_ascii bs hb

set_option maxRecDepth 40000 in
/-- C7: in UTF16LE mode the whole file is decoded and matched once:
(1) with a BOM, ASCII code units expanded to 16-bit little-endian pairs
decode back to the ASCII text (BOM stripped, little-endian pairing);
(2) a trailing odd byte is truncated before decoding;
(3) a BOM-prefixed UTF-16LE file whose code units spell a valid-shaped
ASCII address yields exactly one record with that address. -/
theorem utf16_full_decode_scan :
    (∀ bs : List Nat, (∀ b ∈ bs, b < 128) →
      decodeUTF16LE (255 :: 254 :: bs.flatMap (fun b => [b, 0])) = bs) ∧
    (∀ (bs : List Nat) (x : Nat), (∀ b ∈ bs, b < 128) →
      decodeUTF16LE (255 :: 254 :: (bs.flatMap (fun b => [b, 0]) ++ [x])) = bs) ∧
    (∀ path : List Nat,
      scanFile (255 :: 254 :: addrBytes.flatMap (fun b => [b, 0])) path =
        [⟨addrBytes, path⟩]) := by
  refine ⟨decodeUTF16LE_bom_ascii, fun bs x hb => decodeUTF16LE_bom_ascii_oddtail bs hb x,
    ?_⟩
  intro path
  rw [scanFile]
  rw [if_neg (by simp)]
  rw [if_pos (by decide)]
  rw [decodeUTF16LE_bom_ascii addrBytes (by decide)]
  rw [show findAll addrBytes = [addrBytes] from by decide]
  simp [addMatches, addMatch, List.foldl_cons, List.foldl_nil, toLowerBytes_addr,
    isGenericOnion_addr]

/-- Witness for C7 at a concrete ASCII code-unit list and path. -/
theorem utf16_full_decode_scan_witness :
    ((∀ b ∈ [97, 46], (b : Nat) < 128) ∧
      decodeUTF16LE (255 :: 254 :: [97, 46].flatMap (fun b => [b, 0])) = [97, 46]) ∧
    ((∀ b ∈ [98], (b : Nat) < 128) ∧
      decodeUTF16LE (255 :: 254 :: ([98].flatMap (fun b => [b, 0]) ++ [7])) = [98]) ∧
    scanFile (255 :: 254 :: addrBytes.flatMap (fun b => [b, 0])) [47, 112] =
      [⟨addrBytes, [47, 112]⟩] :=
  ⟨⟨by decide, utf16_full_decode_scan.1 [97, 46] (by decide)⟩,
    ⟨by decide, utf16_full_decode_scan.2.1 [98] 7 (by decide)⟩,
    utf16_full_decode_scan.2.2 [47, 112]⟩

/-! ### Claim C8: read-loop termination and error handling -/

/-- C8: (1) stream entries after a zero-byte read or an error are never
consumed — the loop result only depends on the stream up to and including
the first such read; (2) a read that delivers bytes together with an error
still has its partial chunk scanned, and the matches accumulated so far
(including that chunk's) are returned; (3) a zero-byte read returns the
accumulated matches immediately. The loop returns a plain result list in
every case — no error is propagated to the caller. -/
theorem chunked_read_error_handling :
    (∀ (path : List Nat) (pre : List ReadStep) (r : ReadStep) (rest : List ReadStep)
        (ov : List Nat) (acc : FileAcc),
      (r.bytes = [] ∨ r.isErr = true) →
      runChunked path (pre ++ r :: rest) ov acc = runChunked path (pre ++ [r]) ov acc) ∧
    (∀ (path b : List Nat) (rest : List ReadStep) (ov : List Nat) (acc : FileAcc),
      b ≠ [] →
      runChunked path (⟨b, true⟩ :: rest) ov acc =
        addMatches path acc (scanChunk (ov ++ b))) ∧
    (∀ (path : List Nat) (e : Bool) (rest : List ReadStep) (ov : List Nat) (acc : FileAcc),
      runChunked path (⟨[], e⟩ :: rest) ov acc = acc) := by
  refine ⟨?_, ?_, ?_⟩
  · intro path pre
    induction pre with
    | nil =>
      intro r rest ov acc hr
      simp only [List.nil_append]
      rw [runChunked_cons, runChunked_cons]
      by_cases hb : r.bytes.length = 0
      · rw [if_pos hb, if_pos hb]
      · rw [if_neg hb, if_neg hb]
        rcases hr with hr | hr
        · exact absurd (by rw [hr]; rfl) hb
        · rw [if_pos hr, if_pos hr]
    | cons q pre' ih =>
      intro r rest ov acc hr
      rw [List.cons_append, List.cons_append, runChunked_cons, runChunked_cons]
      by_cases hq0 : q.bytes.length = 0
      · rw [if_pos hq0, if_pos hq0]
      · rw [if_neg hq0, if_neg hq0]
        by_cases hqe : q.isErr = true
        · rw [if_pos hqe, if_pos hqe]
        · rw [if_neg hqe, if_neg hqe]
          exact ih r rest _ _ hr
  · intro path b rest ov acc hb
    rw [runChunked_cons, if_neg (by simpa [List.length_eq_zero] using hb), if_pos rfl]
  · intro path e rest ov acc
    rw [runChunked_cons]
    simp

/-- Witness for C8 at a concrete stream with a mid-stream error. -/
theorem chunked_read_error_handling_witness :
    (runChunked [] ([⟨[97], false⟩] ++ ⟨addrBytes, true⟩ :: [⟨[98], false⟩]) [] ⟨[], []⟩ =
      runChunked [] ([⟨[97], false⟩] ++ [⟨addrBytes, true⟩]) [] ⟨[], []⟩) ∧
    (runChunked [] [⟨addrBytes, true⟩] [] ⟨[], []⟩ =
      addMatches [] ⟨[], []⟩ (scanChunk ([] ++ addrBytes))) ∧
    (runChunked [] [⟨[], true⟩] [] ⟨[], []⟩ = ⟨[], []⟩) :=
  ⟨chunked_read_error_handling.1 [] [⟨[97], false⟩] ⟨addrBytes, true⟩ [⟨[98], false⟩] []
      ⟨[], []⟩ (Or.inr rfl),
    chunked_read_error_handling.2.1 [] addrBytes [] [] ⟨[], []⟩ (by decide),
    chunked_read_error_handling.2.2 [] true [] [] ⟨[], []⟩⟩

/-! ### Claim C10: the overlap is replaced only after blocks longer than
the overlap size -/

/-- First read of the C10 demonstration: 70 junk bytes then the first 30
bytes of the address (100 bytes in total, below `ChunkOverlap`). -/
def shortReadA : List Nat := List.replicate 70 45 ++ addrBytes.take 30

/-- Second read of the C10 demonstration: the remaining 32 address bytes
then 68 junk bytes. -/
def shortReadB : List Nat := addrBytes.drop 30 ++ List.replicate 68 45

set_option maxRecDepth 40000 in
/-- C10: (1) after an iteration whose assembled block (overlap ++ newly
read bytes) is at most `ChunkOverlap` (128) bytes, the previous overlap is
carried forward unchanged to the next iteration; (2) only when the block
is strictly longer than 128 bytes is the overlap replaced by the block's
last 128 bytes; (3) consequently, after a short first read the next
block's view starts directly at the newly read bytes — it does not contain
the bytes that precede them in the file — and an address spanning the two
reads is missed even though it is present in the concatenated content. -/
theorem overlap_update_rule :
    (∀ (path b : List Nat) (rest : List ReadStep) (ov : List Nat) (acc : FileAcc),
      b ≠ [] → (ov ++ b).length ≤ ChunkOverlap →
      runChunked path (⟨b, false⟩ :: rest) ov acc =
        runChunked path rest ov (addMatches path acc (scanChunk (ov ++ b)))) ∧
    (∀ (path b : List Nat) (rest : List ReadStep) (ov : List Nat) (acc : FileAcc),
      b ≠ [] → ChunkOverlap < (ov ++ b).length →
      runChunked path (⟨b, false⟩ :: rest) ov acc =
        runChunked path rest ((ov ++ b).drop ((ov ++ b).length - ChunkOverlap))
          (addMatches path acc (scanChunk (ov ++ b)))) ∧
    ((runChunked [] [⟨shortReadA, false⟩, ⟨shortReadB, false⟩] [] ⟨[], []⟩).results = [] ∧
      findAll (shortReadA ++ shortReadB) = [addrBytes]) := by
  refine ⟨?_, ?_, by decide, by decide⟩
  · intro path b rest ov acc hb hle
    rw [runChunked_cons, if_neg (by simpa [List.length_eq_zero] using hb),
      if_neg (by simp), if_neg (not_lt.mpr hle)]
  · intro path b rest ov acc hb hlt
    rw [runChunked_cons, if_neg (by simpa [List.length_eq_zero] using hb),
      if_neg (by simp), if_pos hlt]

set_option maxRecDepth 40000 in
/-- Witness for C10 at a concrete short read. -/
theorem overlap_update_rule_witness :
    ((97 : Nat) :: [] ≠ [] ∧ (([] : List Nat) ++ [97]).length ≤ ChunkOverlap ∧
      runChunked [] [⟨[97], false⟩] [] ⟨[], []⟩ =
        runChunked [] [] [] (addMatches [] ⟨[], []⟩ (scanChunk ([] ++ [97])))) ∧
    ((97 : Nat) :: List.replicate 200 98 ≠ [] ∧
      ChunkOverlap < (([] : List Nat) ++ 97 :: List.replicate 200 98).length ∧
      runChunked [] [⟨97 :: List.replicate 200 98, false⟩] [] ⟨[], []⟩ =
        runChunked [] []
          ((([] : List Nat) ++ 97 :: List.replicate 200 98).drop
            ((([] : List Nat) ++ 97 :: List.replicate 200 98).length - ChunkOverlap))
          (addMatches [] ⟨[], []⟩ (scanChunk ([] ++ 97 :: List.replicate 200 98)))) :=
  ⟨⟨by decide, by decide,
      overlap_update_rule.1 [] [97] [] [] ⟨[], []⟩ (by decide) (by decide)⟩,
    ⟨by decide, by decide,
      overlap_update_rule.2.1 [] (97 :: List.replicate 200 98) [] [] ⟨[], []⟩ (by decide)
        (by decide)⟩⟩

/-! ### Claim C2: a match crossing the chunk boundary -/

/-- The C2 test content: the address starts 30 bytes before the
`ChunkSize` offset and ends past it, surrounded by junk (0x2D) bytes. -/
def chunkBoundaryContent : List Nat :=
  List.replicate (ChunkSize - 30) 45 ++ addrBytes ++ List.replicate 196 45

theorem cbc_eq : chunkBoundaryContent =
    List.replicate 1048546 45 ++ (addrBytes ++ List.replicate 196 45) := by
  rw [chunkBoundaryContent, show ChunkSize - 30 = 1048546 from rfl, List.append_assoc]

theorem cbc_len : chunkBoundaryContent.length = 1048804 := by
  rw [cbc_eq]
  simp only [List.length_append, List.length_replicate, addrBytes_length]

theorem addr_valid : ∀ b ∈ addrBytes, isValidOnionChar b = true := by
  intro b hb
  rw [addrBytes] at hb
  rcases List.mem_append.mp hb with h | h
  · rw [List.eq_of_mem_replicate h]
    decide
  · simp only [dotOnion, List.mem_cons, List.not_mem_nil, or_false] at h
    rcases h with rfl | rfl | rfl | rfl | rfl | rfl <;> decide

theorem extract_block1 :
    extractOnionChars
      (List.replicate 1048546 45 ++ (addrBytes ++ List.replicate 96 45)) =
      addrBytes ++ [32] := by
  rw [extractOnionChars, extractGo_eq, List.nil_append,
    show ([] : List Nat).getLast? = none from rfl,
    extractRec_replicate_junk_none 1048546 (by decide) (by decide),
    extractRec_append_valid addrBytes 110 addr_valid (by decide) none
      (List.replicate 96 45),
    show toLowerB 110 = 110 from rfl,
    extractRec_junk_tail (by decide) 96 (by omega), toLowerBytes_addr]

theorem scan_block1 :
    scanChunk (List.replicate 1048546 45 ++ (addrBytes ++ List.replicate 96 45)) =
      [addrBytes, addrBytes] := by
  rw [scanChunk, extract_block1, findAll_replicate_junk 1048546 (by decide),
    findAll_addr_append, findAll_replicate_junk_nil 96 (by decide), findAll_addr_append,
    show findAll [32] = [] from by decide]
  rfl

set_option maxRecDepth 40000 in
theorem scan_block2 :
    scanChunk (List.replicate 26 97 ++ (dotOnion ++ List.replicate 196 45)) = [] := by
  decide

theorem cbc_findAll : findAll chunkBoundaryContent = [addrBytes] := by
  rw [cbc_eq, findAll_replicate_junk 1048546 (by decide), findAll_addr_append,
    findAll_replicate_junk_nil 196 (by decide)]

theorem cbc_take_block1 : chunkBoundaryContent.take 1048704 =
    List.replicate 1048546 45 ++ (addrBytes ++ List.replicate 96 45) := by
  rw [cbc_eq, List.take_append_eq_append_take,
    List.take_of_length_le (by rw [List.length_replicate]; omega),
    show (1048704 : Nat) - (List.replicate 1048546 (45 : Nat)).length = 158 from by
      rw [List.length_replicate],
    List.take_append_eq_append_take,
    List.take_of_length_le (by rw [addrBytes_length]; omega),
    show (158 : Nat) - addrBytes.length = 96 from by rw [addrBytes_length],
    List.take_replicate, show min 96 196 = 96 from by norm_num]

theorem cbc_drop_block1 : chunkBoundaryContent.drop 1048704 = List.replicate 100 45 := by
  rw [cbc_eq, List.drop_append_eq_append_drop, List.drop_replicate,
    show (1048546 : Nat) - 1048704 = 0 from by norm_num, List.replicate_zero,
    show (1048704 : Nat) - (List.replicate 1048546 (45 : Nat)).length = 158 from by
      rw [List.length_replicate],
    List.drop_append_eq_append_drop,
    List.drop_eq_nil_of_le (by rw [addrBytes_length]; omega),
    show (158 : Nat) - addrBytes.length = 96 from by rw [addrBytes_length],
    List.drop_replicate, show (196 : Nat) - 96 = 100 from by norm_num, List.nil_append,
    List.nil_append]

theorem block1_overlap :
    (List.replicate 1048546 45 ++ (addrBytes ++ List.replicate 96 45)).drop 1048576 =
      List.replicate 26 97 ++ (dotOnion ++ List.replicate 96 45) := by
  rw [List.drop_append_eq_append_drop, List.drop_replicate,
    show (1048546 : Nat) - 1048576 = 0 from by norm_num, List.replicate_zero,
    show (1048576 : Nat) - (List.replicate 1048546 (45 : Nat)).length = 30 from by
      rw [List.length_replicate],
    show addrBytes ++ List.replicate 96 45 =
      List.replicate 56 97 ++ (dotOnion ++ List.replicate 96 45) from by
      rw [addrBytes, List.append_assoc],
    List.drop_append_eq_append_drop, List.drop_replicate,
    show (56 : Nat) - 30 = 26 from by norm_num,
    show (30 : Nat) - (List.replicate 56 (97 : Nat)).length = 0 from by
      rw [List.length_replicate],
    List.drop_zero, List.nil_append]

set_option maxRecDepth 40000 in
/-- C2: for content whose single address spans the first chunk boundary
(starting 30 bytes before offset `ChunkSize` and ending past it):
(1) the file is classified RAW; (2) the address is visible intact inside
the first assembled block's view; (3) chunked scanning returns exactly
what direct matching over the whole content (with identical lowercasing,
denylist and per-file dedup) returns, namely the one record holding that
address. -/
theorem chunk_boundary_detection :
    detectUTF16LE (chunkBoundaryContent.take 4096) = false ∧
    ((chunkBoundaryContent.take (ChunkSize + ChunkOverlap)).drop (ChunkSize - 30)).take 62 =
      addrBytes ∧
    (∀ path : List Nat,
      scanFileChunkedGo path chunkBoundaryContent =
          (addMatches path ⟨[], []⟩ (findAll chunkBoundaryContent)).results ∧
        scanFileChunkedGo path chunkBoundaryContent = [⟨addrBytes, path⟩]) := by
  refine ⟨?_, ?_, ?_⟩
  · have htk : chunkBoundaryContent.take 4096 = List.replicate 4096 45 := by
      rw [cbc_eq, List.take_append_eq_append_take, List.take_replicate,
        show min 4096 1048546 = 4096 from by norm_num,
        show (4096 : Nat) - (List.replicate 1048546 (45 : Nat)).length = 0 from by
          rw [List.length_replicate],
        List.take_zero, List.append_nil]
    rw [htk, detectUTF16LE_replicate45]
  · rw [show ChunkSize + ChunkOverlap = 1048704 from rfl,
      show ChunkSize - 30 = 1048546 from rfl, cbc_take_block1,
      List.drop_left' (List.length_replicate 1048546 45),
      List.take_left' addrBytes_length]
  · intro path
    have hrun : scanFileChunkedGo path chunkBoundaryContent = [⟨addrBytes, path⟩] := by
      rw [scanFileChunkedGo, cbc_len, goChunkLoop_succ,
        show ChunkSize + ChunkOverlap - List.length ([] : List Nat) = 1048704 from rfl,
        cbc_take_block1, List.nil_append]
      rw [if_neg (by
        simp only [List.length_append, List.length_replicate, addrBytes_length]
        omega)]
      rw [scan_block1]
      have hacc1 : addMatches path ⟨[], []⟩ [addrBytes, addrBytes] =
          ⟨[addrBytes], [⟨addrBytes, path⟩]⟩ := by
        simp [addMatches, addMatch, List.foldl_cons, List.foldl_nil, toLowerBytes_addr,
          isGenericOnion_addr]
      rw [hacc1]
      have hblock1len :
          (List.replicate 1048546 45 ++ (addrBytes ++ List.replicate 96 45)).length =
            1048704 := by
        simp only [List.length_append, List.length_replicate, addrBytes_length]
      rw [hblock1len, if_pos (by decide),
        show (1048704 : Nat) - ChunkOverlap = 1048576 from rfl, block1_overlap,
        cbc_drop_block1]
      rw [show (1048804 : Nat) = 1048803 + 1 from rfl, goChunkLoop_succ]
      have hov1len :
          (List.replicate 26 97 ++ (dotOnion ++ List.replicate 96 45)).length = 128 := by
        simp [dotOnion]
      rw [hov1len, show ChunkSize + ChunkOverlap - 128 = 1048576 from rfl,
        List.take_of_length_le (by rw [List.length_replicate]; omega)]
      rw [if_neg (by simp only [List.length_replicate]; omega)]
      have hblock2 :
          (List.replicate 26 97 ++ (dotOnion ++ List.replicate 96 45)) ++
              List.replicate 100 45 =
            List.replicate 26 97 ++ (dotOnion ++ List.replicate 196 45) := by
        simp only [List.append_assoc, ← List.replicate_add]
      rw [hblock2, scan_block2, addMatches_nil]
      have hblock2len :
          (List.replicate 26 97 ++ (dotOnion ++ List.replicate 196 45)).length = 228 := by
        simp [dotOnion]
      rw [hblock2len, if_pos (by decide),
        show (List.replicate 100 (45 : Nat)).drop 1048576 = [] from by
          rw [List.drop_replicate]
          rfl]
      rw [show (1048803 : Nat) = 1048802 + 1 from rfl, goChunkLoop_succ, List.take_nil]
      rw [if_pos (show List.length ([] : List Nat) = 0 from rfl)]
    have hdirect : (addMatches path ⟨[], []⟩ (findAll chunkBoundaryContent)).results =
        [⟨addrBytes, path⟩] := by
      rw [cbc_findAll]
      simp [addMatches, addMatch, List.foldl_cons, List.foldl_nil, toLowerBytes_addr,
        isGenericOnion_addr]
    exact ⟨by rw [hrun, hdirect], hrun⟩

end OnionFinder
